import Mathlib

/-!
Verification of the WebDAV COPY handler (`handleCopy`) of CloudPaste.

The handler orchestrates object-storage primitives (head, put, list, copy)
to emulate filesystem copy semantics over an S3-style bucket.  We embed the
handler shallowly: paths, keys and bodies are lists of characters (mirroring
JavaScript strings), the backing object store is an association list from
keys to bodies, and the handler is a pure function from its inputs and the
store to an outcome (HTTP status, trace of collaborator calls, final store).

External collaborators that are not part of the source excerpt
(`normalizeS3SubPath`, `parseDestinationPath`, `checkDirectoryExists`,
`updateParentDirectoriesModifiedTime`) are modelled from the specification
and marked as such in their doc comments.  Mount resolution
(`findMountPointByPath`) and the configuration lookup are abstracted as
function parameters, since the handler only consumes their results.
-/

namespace CloudPaste

/-- Object keys, paths, header values and object bodies are modelled as
lists of characters, mirroring JavaScript strings. -/
abbrev Key : Type := List Char

/-- JS `key.endsWith("/")`. -/
def endsSlash (k : Key) : Bool := k.reverse.head? == some '/'

/-- JS `key.substring(0, key.lastIndexOf("/") + 1)`: the key up to and
including its last separator, empty when the key has no separator.  This is
how the handler computes the destination's parent directory key. -/
def dirParent (k : Key) : Key := (k.reverse.dropWhile (fun c => c != '/')).reverse

/-- Strip leading path separators. -/
def trimLeftSlashes (k : Key) : Key := k.dropWhile (fun c => c == '/')

/-- Strip trailing path separators. -/
def trimRightSlashes (k : Key) : Key := (k.reverse.dropWhile (fun c => c == '/')).reverse

/-- Collapse each run of duplicate separators to a single separator. -/
def squash : Key → Key
  | [] => []
  | [c] => [c]
  | a :: b :: t => if a = '/' ∧ b = '/' then squash (b :: t) else a :: squash (b :: t)

/-- Cleaned sub-path: no leading or trailing separator, duplicate
separators collapsed. -/
def cleanSub (k : Key) : Key := squash (trimLeftSlashes (trimRightSlashes k))

/-- Backend storage configuration row (`s3_configs` table).  The JS field
`root_prefix` is called `rootPrefix` here. -/
structure S3Config where
  bucket_name : Key
  rootPrefix : Key
deriving DecidableEq, Repr

/-- Root prefix normalised to end in a single separator, empty when the
configured prefix is empty.  This mirrors the handler's own computation
`s3Config.root_prefix ? (root_prefix.endsWith("/") ? root_prefix :
root_prefix + "/") : ""` (a JS falsy check: the empty string also yields
the empty prefix). -/
def rootPrefixOf (cfg : S3Config) : Key :=
  if cfg.rootPrefix = [] then []
  else if endsSlash cfg.rootPrefix then cfg.rootPrefix else cfg.rootPrefix ++ ['/']

/-- Modelled from the spec: `normalizeS3SubPath` (webdavUtils.js, not in the
excerpt).  Per §4.1 the translation concatenates the backend root prefix
with a single separator, strips/normalises duplicate separators of the
sub-path, and appends a trailing separator exactly when the original
virtual path denotes a directory. -/
def normalizeS3SubPath (subPath : Key) (cfg : S3Config) (isDirectory : Bool) : Key :=
  rootPrefixOf cfg ++ cleanSub subPath ++ (if isDirectory then ['/'] else [])

/-- Source and destination S3 keys as the handler computes them: both are
normalised with the same directory flag, taken from the trailing separator
of the source virtual path only. -/
def s3KeyPair (cfg : S3Config) (srcSub destSub path : Key) : Key × Key :=
  (normalizeS3SubPath srcSub cfg (endsSlash path),
   normalizeS3SubPath destSub cfg (endsSlash path))

/-- Modelled from the spec: `parseDestinationPath` (webdavUtils.js, not in
the excerpt) extracts the virtual path of the `Destination` header; a
missing header yields no path, and the handler's falsy check also rejects
an empty result. -/
def parseDestinationPath : Option Key → Option Key
  | none => none
  | some k => if k = [] then none else some k

/-- JS `c.req.headers.get("Depth") || "infinity"`: a missing header — or an
empty value, which is falsy — defaults to `infinity`. -/
def depthOf : Option Key → Key
  | none => "infinity".toList
  | some d => if d = [] then "infinity".toList else d

/-- Mount record: identifier and reference to its storage configuration. -/
structure Mount where
  id : Nat
  storage_config_id : Nat
deriving DecidableEq, Repr

/-- Result of `findMountPointByPath`: either an error status, a root-path
signal, or a mount together with the remaining sub-path. -/
structure MountResolution where
  error : Option Nat
  isRoot : Bool
  mount : Mount
  subPath : Key
deriving DecidableEq, Repr

/-- The COPY request: virtual source path and the three headers the handler
reads (`Destination`, `Depth`, `Overwrite`), each possibly absent. -/
structure CopyRequest where
  path : Key
  destinationHeader : Option Key
  depthHeader : Option Key
  overwriteHeader : Option Key
deriving DecidableEq, Repr

/-- One collaborator call made by the handler.  `head`, `listPage`, `put`,
`copy` and `delete` are object-storage calls; `checkDir` stands for the
directory-existence probe of `checkDirectoryExists`; `updateParents` is the
ancestor-timestamp propagation; `clearCache` and `updateMount` are the
cache and metadata-store calls. -/
inductive Event where
  | head (key : Key)
  | listPage (pfx : Key) (token : Option Nat)
  | put (key body : Key)
  | copy (srcKey destKey : Key)
  | delete (key : Key)
  | checkDir (key : Key)
  | updateParents (destKey rootPfx : Key)
  | clearCache (key : Key) (isDir : Bool)
  | updateMount (mountId : Nat)
deriving DecidableEq, Repr

/-- Event classifier: object-copy calls. -/
def Event.isCopyEv : Event → Bool
  | .copy _ _ => true
  | _ => false

/-- Event classifier: ancestor-timestamp propagation calls. -/
def Event.isUpdEv : Event → Bool
  | .updateParents _ _ => true
  | _ => false

/-- Event classifier: listing calls. -/
def Event.isListEv : Event → Bool
  | .listPage _ _ => true
  | _ => false

/-- Event classifier: object-delete calls. -/
def Event.isDeleteEv : Event → Bool
  | .delete _ => true
  | _ => false

/-- Number of ancestor-timestamp propagation calls in a trace. -/
def countUpd (l : List Event) : Nat := l.countP Event.isUpdEv

/-- Abstract object-storage backend over a state type `σ`: the handler is
parametric in how the storage answers, like the JS code is parametric in
`s3Client.send`.  `fuel` bounds the continuation-token pagination loop
(a real backend's token chain is finite). -/
structure Backend (σ : Type) where
  head : σ → Key → Bool
  listPage : σ → Key → Option Nat → List Key × Option Nat
  listHasAny : σ → Key → Bool
  put : σ → Key → Key → σ
  copy : σ → Key → Key → σ
  delete : σ → Key → σ
  fuel : σ → Nat

/-- Modelled from the spec: `checkDirectoryExists` (webdavUtils.js, not in
the excerpt).  Per §4.2 it checks marker presence and, failing that, probes
for any descendant with a one-element listing. -/
def checkDirectoryExists (B : Backend σ) (st : σ) (k : Key) : Bool :=
  B.head st k || B.listHasAny st k

/-- Outcome of the handler: HTTP status, trace of collaborator calls, and
final storage state. -/
structure CopyOutcome (σ : Type) where
  status : Nat
  events : List Event
  state : σ
deriving DecidableEq, Repr

/-- The continuation-token pagination loop of the recursive branch
(`do … while (continuationToken)`): collects `Contents` of each page until
no `NextContinuationToken` is returned. -/
def enumLoop (B : Backend σ) (st : σ) (pfx : Key) : Option Nat → Nat → List Key × List Event
  | _, 0 => ([], [])
  | tok, fuel + 1 =>
    let r := B.listPage st pfx tok
    match r.2 with
    | none => (r.1, [Event.listPage pfx tok])
    | some t =>
      let rest := enumLoop B st pfx (some t) fuel
      (r.1 ++ rest.1, Event.listPage pfx tok :: rest.2)

/-- The per-object copy loop of the recursive branch: each listed key `k`
is copied to `destKey ++ k.substring(srcKey.length)`. -/
def copyLoop (B : Backend σ) (st : σ) (objs : List Key) (srcKey destKey : Key) :
    σ × List Event :=
  match objs with
  | [] => (st, [])
  | k :: ks =>
    let nk := destKey ++ k.drop srcKey.length
    let r := copyLoop B (B.copy st k nk) ks srcKey destKey
    (r.1, Event.copy k nk :: r.2)

/-- Modelled from the spec: the ancestor chain walked by
`updateParentDirectoriesModifiedTime` (fsService.js, not in the excerpt) —
every directory key strictly between the destination key and the mount's
root prefix, i.e. every proper prefix of `destKey` that ends in a separator
and is longer than the root prefix. -/
def ancestorsOf (destKey rootPfx : Key) : List Key :=
  (List.range destKey.length).filterMap fun i =>
    if endsSlash (destKey.take (i + 1)) = true ∧ i + 1 < destKey.length ∧
        rootPfx.length < i + 1 then
      some (destKey.take (i + 1))
    else none

/-- Modelled from the spec: `updateParentDirectoriesModifiedTime`
(fsService.js, not in the excerpt) refreshes the modification marker of
every ancestor directory of the destination, which we model as re-putting
each ancestor's zero-length marker. -/
def applyUpdateParents (B : Backend σ) (st : σ) (destKey rootPfx : Key) : σ :=
  (ancestorsOf destKey rootPfx).foldl (fun s p => B.put s p []) st

/-- Best-effort creation of the destination's parent directory (lines
112–136 of the source): when the destination key contains a separator, the
parent's existence is probed and a zero-length marker is created if it is
missing (failures of that creation are swallowed by the source, so the
model has none). -/
def parentStep (B : Backend σ) (st : σ) (destKey : Key) : σ × List Event :=
  if '/' ∈ destKey then
    if checkDirectoryExists B st (dirParent destKey) then
      (st, [Event.checkDir (dirParent destKey)])
    else
      (B.put st (dirParent destKey) [],
       [Event.checkDir (dirParent destKey), Event.put (dirParent destKey) []])
  else (st, ([] : List Event))

/-- The part of the handler after all request-level guards: best-effort
parent creation, destination-existence check with overwrite policy, then
the directory (Depth 0 / recursive) or file transfer, timestamp
propagation, cache invalidation and mount-usage refresh.  Mirrors lines
107–309 of the source. -/
def copyStage (B : Backend σ) (st : σ) (srcKey destKey : Key) (isDirectory : Bool)
    (depth : Key) (allowOverwrite : Bool) (rootPfx : Key) (mountId : Nat) :
    CopyOutcome σ :=
  let par := parentStep B st destKey
  let st1 := par.1
  let evs1 := par.2 ++ [Event.head destKey]
  if B.head st1 destKey && !allowOverwrite then ⟨412, evs1, st1⟩
  else if isDirectory then
    if depth = "0".toList then
      ⟨201, evs1 ++ [Event.put destKey [], Event.clearCache destKey true,
        Event.updateMount mountId], B.put st1 destKey []⟩
    else
      let enm := enumLoop B st1 srcKey none (B.fuel st1)
      if enm.1 = [] then
        if B.head st1 srcKey then
          ⟨201, evs1 ++ enm.2 ++ [Event.head srcKey, Event.put destKey [],
            Event.clearCache destKey true, Event.updateMount mountId],
            B.put st1 destKey []⟩
        else ⟨404, evs1 ++ enm.2 ++ [Event.head srcKey], st1⟩
      else
        let cl := copyLoop B st1 enm.1 srcKey destKey
        ⟨201, evs1 ++ enm.2 ++ cl.2 ++ [Event.updateParents destKey rootPfx,
          Event.clearCache destKey true, Event.updateMount mountId],
          applyUpdateParents B cl.1 destKey rootPfx⟩
  else
    if B.head st1 srcKey then
      ⟨201, evs1 ++ [Event.head srcKey, Event.copy srcKey destKey,
        Event.updateParents destKey rootPfx, Event.clearCache destKey false,
        Event.updateMount mountId],
        applyUpdateParents B (B.copy st1 srcKey destKey) destKey rootPfx⟩
    else ⟨404, evs1 ++ [Event.head srcKey], st1⟩

/-- Request-level guards of the handler, in source order: source mount
resolution, `Destination` parsing, identical-path check, destination mount
resolution (root signal before error), cross-mount check, `Depth`
validation, configuration lookup; then `copyStage`.  Mirrors lines
19–105 of the source. -/
def handleCopyCore (B : Backend σ) (resolve : Key → MountResolution)
    (configOf : Nat → Option S3Config) (path : Key) (destinationHeader : Option Key)
    (depth : Key) (allowOverwrite : Bool) (st : σ) : CopyOutcome σ :=
  let sourceRes := resolve path
  match sourceRes.error with
  | some e => ⟨e, [], st⟩
  | none =>
    match parseDestinationPath destinationHeader with
    | none => ⟨400, [], st⟩
    | some destPath =>
      if path = destPath then ⟨400, [], st⟩
      else
        let destRes := resolve destPath
        if destRes.isRoot then ⟨403, [], st⟩
        else match destRes.error with
        | some e => ⟨e, [], st⟩
        | none =>
          if sourceRes.mount.id ≠ destRes.mount.id then ⟨502, [], st⟩
          else if depth ≠ "0".toList ∧ depth ≠ "infinity".toList then ⟨400, [], st⟩
          else match configOf sourceRes.mount.storage_config_id with
          | none => ⟨404, [], st⟩
          | some cfg =>
            let keys := s3KeyPair cfg sourceRes.subPath destRes.subPath path
            copyStage B st keys.1 keys.2 (endsSlash path) depth allowOverwrite
              (rootPrefixOf cfg) sourceRes.mount.id

/-- The WebDAV COPY handler `handleCopy`. -/
def handleCopy (B : Backend σ) (resolve : Key → MountResolution)
    (configOf : Nat → Option S3Config) (req : CopyRequest) (st : σ) : CopyOutcome σ :=
  handleCopyCore B resolve configOf req.path req.destinationHeader
    (depthOf req.depthHeader) (decide (req.overwriteHeader ≠ some ['F'])) st

/-- A concrete bucket: an association list from keys to object bodies, in
listing order. -/
abbrev Store : Type := List (Key × Key)

/-- Body stored under a key, if any. -/
def Store.get? : Store → Key → Option Key
  | [], _ => none
  | (k', v') :: t, k => if k' = k then some v' else Store.get? t k

/-- Create or overwrite the object at a key. -/
def Store.put : Store → Key → Key → Store
  | [], k, v => [(k, v)]
  | (k', v') :: t, k, v =>
    if k' = k then (k, v) :: t else (k', v') :: Store.put t k v

/-- A well-formed bucket binds each key at most once. -/
def Store.wf (s : Store) : Prop := (s.map Prod.fst).Nodup

instance (s : Store) : Decidable s.wf :=
  inferInstanceAs (Decidable ((s.map Prod.fst).Nodup))

/-- Objects whose key starts with a prefix, in listing order. -/
def filterKeys (pfx : Key) (s : Store) : Store :=
  s.filter (fun kv => pfx.isPrefixOf kv.1)

/-- The faithful backend over a concrete bucket: `head` is key lookup,
listing pages through the prefix-filtered bucket `pageSize` keys at a
time with positional continuation tokens, `copy` reads the source body and
writes it at the destination. -/
def storeBackend (pageSize : Nat) : Backend Store where
  head st k := (Store.get? st k).isSome
  listPage st pfx tok :=
    let g := filterKeys pfx st
    let t := tok.getD 0
    (((g.drop t).take pageSize).map Prod.fst,
     if t + pageSize < g.length then some (t + pageSize) else none)
  listHasAny st k := st.any (fun kv => k.isPrefixOf kv.1)
  put := Store.put
  copy st src dst :=
    match Store.get? st src with
    | some v => Store.put st dst v
    | none => st
  delete st k := st.filter (fun kv => !(kv.1 == k))
  fuel st := st.length + 1

/-- A backend whose listing answers are stale: it reports no objects even
when the bucket has some (head and writes behave normally).  Real object
stores can answer this way under eventual consistency, which is what the
handler's empty-directory fallback defends against. -/
def blindListBackend : Backend Store :=
  { storeBackend 1 with listPage := fun _ _ _ => ([], none) }

/-- Configuration the handler would load for a request (from the source
mount's `storage_config_id`). -/
def cfgOfReq (resolve : Key → MountResolution) (configOf : Nat → Option S3Config)
    (req : CopyRequest) : Option S3Config :=
  configOf (resolve req.path).mount.storage_config_id

/-- Destination S3 key the handler would compute for a request (empty when
the request never reaches the transfer stage). -/
def destKeyOf (resolve : Key → MountResolution) (configOf : Nat → Option S3Config)
    (req : CopyRequest) : Key :=
  match parseDestinationPath req.destinationHeader, cfgOfReq resolve configOf req with
  | some dp, some cfg =>
    (s3KeyPair cfg (resolve req.path).subPath (resolve dp).subPath req.path).2
  | _, _ => []

/-- Root prefix the handler would compute for a request. -/
def rootPfxOf (resolve : Key → MountResolution) (configOf : Nat → Option S3Config)
    (req : CopyRequest) : Key :=
  match cfgOfReq resolve configOf req with
  | some cfg => rootPrefixOf cfg
  | none => []

/-- Source S3 key the handler would compute for a request (empty when the
request never reaches the transfer stage). -/
def srcKeyOf (resolve : Key → MountResolution) (configOf : Nat → Option S3Config)
    (req : CopyRequest) : Key :=
  match parseDestinationPath req.destinationHeader, cfgOfReq resolve configOf req with
  | some dp, some cfg =>
    (s3KeyPair cfg (resolve req.path).subPath (resolve dp).subPath req.path).1
  | _, _ => []

/-! ### Concrete fixtures used for counterexamples and witnesses -/

/-- A mount. -/
def exMount : Mount := ⟨1, 7⟩

/-- A second, different mount. -/
def exMountB : Mount := ⟨2, 9⟩

/-- A configuration with an empty root prefix. -/
def exCfg : S3Config := ⟨"b".toList, []⟩

/-- A concrete mount resolver: paths under `/m/` resolve to `exMount`,
`/n/h` to `exMountB`, anything else fails with 404. -/
def exResolve : Key → MountResolution := fun p =>
  if p = "/m/a/".toList then ⟨none, false, exMount, "a/".toList⟩
  else if p = "/m/a/b/".toList then ⟨none, false, exMount, "a/b/".toList⟩
  else if p = "/m/c/".toList then ⟨none, false, exMount, "c/".toList⟩
  else if p = "/m/d/".toList then ⟨none, false, exMount, "d/".toList⟩
  else if p = "/m/f".toList then ⟨none, false, exMount, "f".toList⟩
  else if p = "/m/g".toList then ⟨none, false, exMount, "g".toList⟩
  else if p = "/n/h".toList then ⟨none, false, exMountB, "h".toList⟩
  else ⟨some 404, false, exMount, []⟩

/-- A concrete configuration lookup for `exMount`. -/
def exConfigOf : Nat → Option S3Config := fun i => if i = 7 then some exCfg else none

/-- Bucket with a directory `a/` whose subtree contains the nested
directory `a/b/` — the destination of `reqNested` lies inside the source
subtree. -/
def storeNested : Store :=
  [("a/".toList, []), ("a/b/".toList, "M".toList), ("a/b/x".toList, "X".toList)]

/-- Recursive COPY of `/m/a/` onto `/m/a/b/` (destination inside source). -/
def reqNested : CopyRequest := ⟨"/m/a/".toList, some "/m/a/b/".toList, none, none⟩

/-- Bucket with a directory `a/` holding one file. -/
def storeFlat : Store := [("a/".toList, []), ("a/x".toList, "X".toList)]

/-- Recursive COPY of `/m/a/` to the fresh, disjoint `/m/c/`. -/
def reqDisjoint : CopyRequest := ⟨"/m/a/".toList, some "/m/c/".toList, none, none⟩

/-- Bucket with two directory markers. -/
def storeTwoDirs : Store := [("a/".toList, []), ("c/".toList, [])]

/-- Depth-0 COPY of `/m/a/` to `/m/c/`. -/
def reqDepth0 : CopyRequest := ⟨"/m/a/".toList, some "/m/c/".toList, some "0".toList, none⟩

/-- Bucket where the nested marker `a/b/` holds content. -/
def storeSub : Store := [("a/".toList, []), ("a/b/".toList, "M".toList)]

/-- Depth-0 COPY of `/m/a/` onto `/m/a/b/` (destination inside source). -/
def reqDepth0Nested : CopyRequest :=
  ⟨"/m/a/".toList, some "/m/a/b/".toList, some "0".toList, none⟩

/-- Bucket with two files. -/
def storeFiles : Store := [("f".toList, "F1".toList), ("g".toList, "G".toList)]

/-- File COPY of `/m/f` over the existing `/m/g` with `Overwrite: F`. -/
def reqFileOverF : CopyRequest :=
  ⟨"/m/f".toList, some "/m/g".toList, none, some "F".toList⟩

/-- File COPY of `/m/f` to `/m/g` without an `Overwrite` header. -/
def reqFile : CopyRequest := ⟨"/m/f".toList, some "/m/g".toList, none, none⟩

/-- COPY whose destination resolves to a different mount. -/
def reqCross : CopyRequest := ⟨"/m/f".toList, some "/n/h".toList, none, none⟩

/-- COPY whose destination equals its source path. -/
def reqSame : CopyRequest := ⟨"/m/f".toList, some "/m/f".toList, none, none⟩

/-- Recursive COPY of the nonexistent directory `/m/d/`. -/
def reqMissingDir : CopyRequest := ⟨"/m/d/".toList, some "/m/c/".toList, none, none⟩

/-- COPY with the invalid header `Depth: 2`. -/
def reqBadDepth : CopyRequest :=
  ⟨"/m/f".toList, some "/m/g".toList, some "2".toList, none⟩

/-! ### Basic facts about keys and prefixes -/

theorem isPrefixOf_iff (p k : Key) : p.isPrefixOf k = true ↔ ∃ t, k = p ++ t := by
  induction p generalizing k with
  | nil => simp [List.isPrefixOf]
  | cons a p ih =>
    cases k with
    | nil => simp [List.isPrefixOf]
    | cons b k =>
      simp only [List.isPrefixOf, Bool.and_eq_true, beq_iff_eq, ih, List.cons_append,
        List.cons.injEq]
      constructor
      · rintro ⟨hab, t, ht⟩
        exact ⟨t, hab.symm, ht⟩
      · rintro ⟨t, hba, ht⟩
        exact ⟨hba.symm, t, ht⟩

theorem isPrefixOf_append_self (p t : Key) : p.isPrefixOf (p ++ t) = true :=
  (isPrefixOf_iff p (p ++ t)).mpr ⟨t, rfl⟩

theorem isPrefixOf_self (p : Key) : p.isPrefixOf p = true := by
  have h := isPrefixOf_append_self p []
  rwa [List.append_nil] at h

theorem isPrefixOf_trans {a b c : Key} (h1 : a.isPrefixOf b = true)
    (h2 : b.isPrefixOf c = true) : a.isPrefixOf c = true := by
  obtain ⟨t1, ht1⟩ := (isPrefixOf_iff a b).mp h1
  obtain ⟨t2, ht2⟩ := (isPrefixOf_iff b c).mp h2
  exact (isPrefixOf_iff a c).mpr ⟨t1 ++ t2, by simp [ht2, ht1]⟩

theorem length_le_of_isPrefixOf {p k : Key} (h : p.isPrefixOf k = true) :
    p.length ≤ k.length := by
  obtain ⟨t, ht⟩ := (isPrefixOf_iff p k).mp h
  simp [ht]

theorem eq_of_isPrefixOf_of_length_le {p k : Key} (h : p.isPrefixOf k = true)
    (hl : k.length ≤ p.length) : p = k := by
  obtain ⟨t, ht⟩ := (isPrefixOf_iff p k).mp h
  have : t = [] := by
    subst ht
    simp only [List.length_append] at hl
    exact List.eq_nil_of_length_eq_zero (by omega)
  simp [ht, this]

/-- When the source subtree and the destination subtree are disjoint
(neither key is a prefix of the other), no destination-derived target key
lies under the source prefix. -/
theorem srcNotPrefixOfTarget {srcKey destKey : Key}
    (hsd : srcKey.isPrefixOf destKey = false) (hds : destKey.isPrefixOf srcKey = false)
    (rel : Key) : srcKey.isPrefixOf (destKey ++ rel) = false := by
  by_contra hcon
  have h : srcKey.isPrefixOf (destKey ++ rel) = true := by
    cases hx : srcKey.isPrefixOf (destKey ++ rel) with
    | false => exact absurd hx hcon
    | true => rfl
  obtain ⟨t, ht⟩ := (isPrefixOf_iff _ _).mp h
  rcases List.append_eq_append_iff.mp ht.symm with ⟨a', ha1, _⟩ | ⟨c', hc1, _⟩
  · have : srcKey.isPrefixOf destKey = true := (isPrefixOf_iff _ _).mpr ⟨a', ha1⟩
    rw [this] at hsd
    exact absurd hsd (by simp)
  · have : destKey.isPrefixOf srcKey = true := (isPrefixOf_iff _ _).mpr ⟨c', hc1⟩
    rw [this] at hds
    exact absurd hds (by simp)

theorem dropWhile_suffix_decomp (p : α → Bool) (l : List α) :
    ∃ u, l = u ++ l.dropWhile p := by
  induction l with
  | nil => exact ⟨[], rfl⟩
  | cons a t ih =>
    by_cases hp : p a = true
    · obtain ⟨u, hu⟩ := ih
      refine ⟨a :: u, ?_⟩
      simp [List.dropWhile, hp]
      exact hu
    · refine ⟨[], ?_⟩
      simp [List.dropWhile, hp]

/-- The parent key is a prefix of the key. -/
theorem dirParent_decomp (k : Key) : ∃ t, k = dirParent k ++ t := by
  obtain ⟨u, hu⟩ := dropWhile_suffix_decomp (fun c => c != '/') k.reverse
  refine ⟨u.reverse, ?_⟩
  have h : k = (u ++ k.reverse.dropWhile (fun c => c != '/')).reverse := by
    rw [← hu, List.reverse_reverse]
  rw [List.reverse_append] at h
  rw [dirParent]
  exact h

theorem dirParent_isPrefixOf (k : Key) : (dirParent k).isPrefixOf k = true := by
  obtain ⟨t, ht⟩ := dirParent_decomp k
  exact (isPrefixOf_iff _ _).mpr ⟨t, ht⟩

theorem length_dirParent_le (k : Key) : (dirParent k).length ≤ k.length :=
  length_le_of_isPrefixOf (dirParent_isPrefixOf k)

theorem endsSlash_append_slash (x : Key) : endsSlash (x ++ ['/']) = true := by
  simp [endsSlash, List.reverse_append]

theorem endsSlash_append_right (x : Key) {c : Key} (hc : c ≠ []) :
    endsSlash (x ++ c) = endsSlash c := by
  cases hr : c.reverse with
  | nil => exact absurd (by simpa using hr) hc
  | cons a t => simp [endsSlash, List.reverse_append, hr]

theorem dirParent_of_endsSlash {k : Key} (h : endsSlash k = true) : dirParent k = k := by
  rcases hr : k.reverse with _ | ⟨c, t⟩
  · simp [endsSlash, hr] at h
  · have hc : c = '/' := by simpa [endsSlash, hr] using h
    subst hc
    have : k.reverse.dropWhile (fun c => c != '/') = k.reverse := by
      rw [hr]
      simp [List.dropWhile]
    rw [dirParent, this, List.reverse_reverse]

theorem mem_slash_of_endsSlash {k : Key} (h : endsSlash k = true) : '/' ∈ k := by
  rcases hr : k.reverse with _ | ⟨c, t⟩
  · simp [endsSlash, hr] at h
  · have hc : c = '/' := by simpa [endsSlash, hr] using h
    have : '/' ∈ k.reverse := by
      rw [hr, hc]
      exact List.mem_cons_self _ _
    simpa using this

/-! ### The cleaned sub-path has no leading or trailing separator -/

theorem squash_eq_nil_iff (l : Key) : squash l = [] ↔ l = [] := by
  induction l using squash.induct with
  | case1 => simp [squash]
  | case2 c => simp [squash]
  | case3 a b t hab ih =>
    have h : squash (a :: b :: t) = squash (b :: t) := by rw [squash, if_pos hab]
    rw [h, ih]
    simp
  | case4 a b t hab ih =>
    have h : squash (a :: b :: t) = a :: squash (b :: t) := by rw [squash, if_neg hab]
    rw [h]
    simp

theorem squash_getLast? (l : Key) : (squash l).getLast? = l.getLast? := by
  induction l using squash.induct with
  | case1 => rfl
  | case2 c => rfl
  | case3 a b t hab ih =>
    have h : squash (a :: b :: t) = squash (b :: t) := by rw [squash, if_pos hab]
    rw [h, ih, List.getLast?_cons_cons]
  | case4 a b t hab ih =>
    have h : squash (a :: b :: t) = a :: squash (b :: t) := by rw [squash, if_neg hab]
    rw [h]
    have hne : squash (b :: t) ≠ [] := by simp [squash_eq_nil_iff]
    obtain ⟨c, l', hc⟩ := List.exists_cons_of_ne_nil hne
    rw [hc, List.getLast?_cons_cons, ← hc, ih, List.getLast?_cons_cons]

theorem endsSlash_eq_getLast (k : Key) : endsSlash k = (k.getLast? == some '/') := by
  rw [endsSlash, List.head?_reverse]

theorem head?_dropWhile_false (p : α → Bool) (l : List α) {c : α}
    (h : (l.dropWhile p).head? = some c) : p c = false := by
  induction l with
  | nil => simp [List.dropWhile] at h
  | cons a t ih =>
    by_cases hp : p a = true
    · rw [List.dropWhile_cons_of_pos hp] at h
      exact ih h
    · rw [List.dropWhile_cons_of_neg hp] at h
      simp only [List.head?_cons, Option.some.injEq] at h
      subst h
      simpa using hp

theorem endsSlash_trimRightSlashes (s : Key) (h : trimRightSlashes s ≠ []) :
    endsSlash (trimRightSlashes s) = false := by
  rw [endsSlash]
  rw [trimRightSlashes, List.reverse_reverse]
  cases hh : (s.reverse.dropWhile (fun c => c == '/')).head? with
  | none =>
    rw [List.head?_eq_none_iff] at hh
    exact absurd (by simp [trimRightSlashes, hh]) h
  | some c =>
    have := head?_dropWhile_false (fun c => c == '/') s.reverse hh
    simp only [beq_iff_eq] at this
    simp [hh, this]

theorem trimLeftSlashes_endsSlash (w : Key) (h : trimLeftSlashes w ≠ []) :
    endsSlash (trimLeftSlashes w) = endsSlash w := by
  obtain ⟨u, hu⟩ := dropWhile_suffix_decomp (fun c => c == '/') w
  calc endsSlash (trimLeftSlashes w) = endsSlash (u ++ trimLeftSlashes w) :=
        (endsSlash_append_right u h).symm
    _ = endsSlash w := by rw [trimLeftSlashes, ← hu]

theorem trimLeftSlashes_eq_nil (v : Key) (h : v = []) : trimLeftSlashes v = [] := by
  simp [trimLeftSlashes, h]

/-- The cleaned sub-path, when nonempty, never ends in a separator. -/
theorem cleanSub_endsSlash_false (s : Key) (h : cleanSub s ≠ []) :
    endsSlash (cleanSub s) = false := by
  have hw : trimLeftSlashes (trimRightSlashes s) ≠ [] := by
    intro hx
    exact h (by simp [cleanSub, hx, squash])
  have hv : trimRightSlashes s ≠ [] := by
    intro hx
    exact hw (trimLeftSlashes_eq_nil _ hx)
  have h1 : endsSlash (cleanSub s) = endsSlash (trimLeftSlashes (trimRightSlashes s)) := by
    rw [endsSlash_eq_getLast, endsSlash_eq_getLast, cleanSub, squash_getLast?]
  rw [h1, trimLeftSlashes_endsSlash _ hw, endsSlash_trimRightSlashes _ hv]

theorem cleanSub_append_slash (s : Key) : cleanSub (s ++ ['/']) = cleanSub s := by
  have ht : trimRightSlashes (s ++ ['/']) = trimRightSlashes s := by
    rw [trimRightSlashes, trimRightSlashes, List.reverse_append]
    simp [List.dropWhile]
  rw [cleanSub, cleanSub, ht]

/-- A key produced by `normalizeS3SubPath` ends in a separator exactly when
the directory flag is set, provided the cleaned sub-path is nonempty. -/
theorem endsSlash_normalize (subPath : Key) (cfg : S3Config) (b : Bool)
    (h : cleanSub subPath ≠ []) :
    endsSlash (normalizeS3SubPath subPath cfg b) = b := by
  cases b with
  | true =>
    rw [normalizeS3SubPath]
    exact endsSlash_append_slash _
  | false =>
    rw [normalizeS3SubPath]
    rw [show (if false then ['/'] else ([] : Key)) = [] from rfl, List.append_nil,
      endsSlash_append_right _ h, cleanSub_endsSlash_false _ h]

theorem endsSlash_normalize_dir (subPath : Key) (cfg : S3Config) :
    endsSlash (normalizeS3SubPath subPath cfg true) = true := by
  rw [normalizeS3SubPath]
  exact endsSlash_append_slash _

/-! ### Facts about the concrete bucket -/

theorem get?_put_self (s : Store) (k v : Key) : Store.get? (Store.put s k v) k = some v := by
  induction s with
  | nil => simp [Store.put, Store.get?]
  | cons kv t ih =>
    obtain ⟨a, b⟩ := kv
    by_cases h : a = k
    · rw [Store.put, if_pos h, Store.get?, if_pos rfl]
    · rw [Store.put, if_neg h, Store.get?, if_neg h, ih]

theorem get?_put_ne (s : Store) (k v m : Key) (h : m ≠ k) :
    Store.get? (Store.put s k v) m = Store.get? s m := by
  have hkm : ¬ (k = m) := fun he => h he.symm
  induction s with
  | nil => simp [Store.put, Store.get?, hkm]
  | cons kv t ih =>
    obtain ⟨a, b⟩ := kv
    by_cases hk : a = k
    · rw [Store.put, if_pos hk, Store.get?, if_neg hkm, Store.get?, hk, if_neg hkm]
    · rw [Store.put, if_neg hk, Store.get?, Store.get?]
      by_cases ham : a = m
      · rw [if_pos ham, if_pos ham]
      · rw [if_neg ham, if_neg ham, ih]

theorem mem_fst_put (s : Store) (k v m : Key) :
    m ∈ (Store.put s k v).map Prod.fst ↔ m ∈ s.map Prod.fst ∨ m = k := by
  induction s with
  | nil => simp [Store.put]
  | cons kv t ih =>
    obtain ⟨a, b⟩ := kv
    by_cases hk : a = k
    · subst hk
      rw [Store.put, if_pos rfl]
      simp
      tauto
    · rw [Store.put, if_neg hk]
      simp only [List.map_cons, List.mem_cons, ih]
      tauto

theorem wf_put (s : Store) (k v : Key) (h : s.wf) : (Store.put s k v).wf := by
  induction s with
  | nil => simp [Store.put, Store.wf]
  | cons kv t ih =>
    obtain ⟨a, b⟩ := kv
    simp only [Store.wf, List.map_cons, List.nodup_cons] at h
    by_cases hk : a = k
    · subst hk
      rw [Store.put, if_pos rfl]
      simp only [Store.wf, List.map_cons, List.nodup_cons]
      exact h
    · rw [Store.put, if_neg hk]
      simp only [Store.wf, List.map_cons, List.nodup_cons]
      refine ⟨?_, ih h.2⟩
      rw [mem_fst_put]
      rintro (hmem | heq)
      · exact h.1 hmem
      · exact hk heq

theorem mem_of_get?_eq_some {s : Store} {k v : Key} (h : Store.get? s k = some v) :
    (k, v) ∈ s := by
  induction s with
  | nil => simp [Store.get?] at h
  | cons kv t ih =>
    obtain ⟨a, b⟩ := kv
    by_cases hk : a = k
    · rw [Store.get?, if_pos hk] at h
      obtain rfl : b = v := by simpa using h
      subst hk
      exact List.mem_cons_self _ _
    · rw [Store.get?, if_neg hk] at h
      exact List.mem_cons_of_mem _ (ih h)

theorem get?_isSome_of_mem {s : Store} {k v : Key} (h : (k, v) ∈ s) :
    (Store.get? s k).isSome = true := by
  induction s with
  | nil => simp at h
  | cons kv t ih =>
    obtain ⟨a, b⟩ := kv
    by_cases hk : a = k
    · rw [Store.get?, if_pos hk]
      rfl
    · rw [Store.get?, if_neg hk]
      rcases List.mem_cons.mp h with heq | hmem
      · exact absurd (congrArg Prod.fst heq).symm hk
      · exact ih hmem

theorem get?_eq_some_of_mem {s : Store} {k v : Key} (hwf : s.wf) (h : (k, v) ∈ s) :
    Store.get? s k = some v := by
  induction s with
  | nil => simp at h
  | cons kv t ih =>
    obtain ⟨a, b⟩ := kv
    simp only [Store.wf, List.map_cons, List.nodup_cons] at hwf
    rcases List.mem_cons.mp h with heq | hmem
    · injection heq with h1 h2
      subst h1
      subst h2
      rw [Store.get?, if_pos rfl]
    · by_cases hk : a = k
      · exfalso
        apply hwf.1
        rw [hk]
        exact List.mem_map_of_mem Prod.fst hmem
      · rw [Store.get?, if_neg hk]
        exact ih hwf.2 hmem

theorem mem_put_of_ne {s : Store} {k v k' v' : Key} (h : k' ≠ k) :
    (k', v') ∈ Store.put s k v ↔ (k', v') ∈ s := by
  induction s with
  | nil =>
    rw [Store.put]
    simp only [List.mem_singleton, List.not_mem_nil, iff_false]
    exact fun he => h (congrArg Prod.fst he)
  | cons kv t ih =>
    obtain ⟨a, b⟩ := kv
    by_cases hk : a = k
    · subst hk
      rw [Store.put, if_pos rfl]
      constructor
      · rintro hmem
        rcases List.mem_cons.mp hmem with heq | hmem2
        · exact absurd (congrArg Prod.fst heq) h
        · exact List.mem_cons_of_mem _ hmem2
      · rintro hmem
        rcases List.mem_cons.mp hmem with heq | hmem2
        · exact absurd (congrArg Prod.fst heq) h
        · exact List.mem_cons_of_mem _ hmem2
    · rw [Store.put, if_neg hk]
      simp only [List.mem_cons, ih]

theorem filterKeys_put_not (pfx : Key) (s : Store) (k v : Key)
    (h : pfx.isPrefixOf k = false) :
    filterKeys pfx (Store.put s k v) = filterKeys pfx s := by
  induction s with
  | nil => simp [Store.put, filterKeys, h]
  | cons kv t ih =>
    obtain ⟨a, b⟩ := kv
    by_cases hk : a = k
    · rw [Store.put, if_pos hk]
      subst hk
      simp only [filterKeys, List.filter_cons, h]
      rfl
    · rw [Store.put, if_neg hk]
      simp only [filterKeys, List.filter_cons] at ih ⊢
      cases hp : pfx.isPrefixOf a with
      | true => simp only [hp, cond_true, ih]
      | false => simp only [hp, cond_false, ih]

theorem filterKeys_mem {pfx : Key} {s : Store} {kv : Key × Key}
    (h : kv ∈ filterKeys pfx s) : kv ∈ s ∧ pfx.isPrefixOf kv.1 = true := by
  have := List.mem_filter.mp h
  exact ⟨this.1, this.2⟩

theorem mem_filterKeys {pfx : Key} {s : Store} {kv : Key × Key}
    (h1 : kv ∈ s) (h2 : pfx.isPrefixOf kv.1 = true) : kv ∈ filterKeys pfx s :=
  List.mem_filter.mpr ⟨h1, h2⟩

theorem nodup_map_fst_filterKeys {pfx : Key} {s : Store} (hwf : s.wf) :
    ((filterKeys pfx s).map Prod.fst).Nodup := by
  have hsub : List.Sublist ((filterKeys pfx s).map Prod.fst) (s.map Prod.fst) :=
    List.Sublist.map Prod.fst (List.filter_sublist s)
  exact List.Nodup.sublist hsub hwf

/-! ### The pagination loop enumerates exactly the prefix-filtered bucket -/

theorem enumLoop_storeBackend (p : Nat) (st : Store) (pfx : Key) (fuel : Nat)
    (tok : Option Nat) :
    (enumLoop (storeBackend p) st pfx tok fuel).1 =
      (((filterKeys pfx st).map Prod.fst).drop (tok.getD 0)).take (p * fuel) := by
  induction fuel generalizing tok with
  | zero => simp [enumLoop]
  | succ fuel ih =>
    rw [enumLoop]
    have hpage : ((storeBackend p).listPage st pfx tok).1 =
        (((filterKeys pfx st).map Prod.fst).drop (tok.getD 0)).take p := by
      simp [storeBackend, List.map_take, List.map_drop]
    by_cases hlt : tok.getD 0 + p < (filterKeys pfx st).length
    · have hnext : ((storeBackend p).listPage st pfx tok).2 = some (tok.getD 0 + p) := by
        simp [storeBackend, hlt]
      rw [hnext]
      simp only [hpage, ih (some (tok.getD 0 + p))]
      have hdd : (((filterKeys pfx st).map Prod.fst).drop (tok.getD 0 + p)) =
          ((((filterKeys pfx st).map Prod.fst).drop (tok.getD 0)).drop p) := by
        rw [List.drop_drop]
      rw [Option.getD_some, hdd, ← List.take_add]
      congr 1
      rw [Nat.mul_succ]
      omega
    · have hnext : ((storeBackend p).listPage st pfx tok).2 = none := by
        simp [storeBackend, hlt]
      rw [hnext, hpage]
      have hlen : (((filterKeys pfx st).map Prod.fst).drop (tok.getD 0)).length ≤ p := by
        simp only [List.length_drop, List.length_map]
        omega
      rw [List.take_of_length_le hlen, List.take_of_length_le (le_trans hlen ?_)]
      rw [Nat.mul_succ]
      omega

/-- With a positive page size and the fuel the concrete backend provides,
the pagination loop returns every key under the prefix, in order. -/
theorem enumLoop_storeBackend_all (p : Nat) (hp : 0 < p) (st : Store) (pfx : Key) :
    (enumLoop (storeBackend p) st pfx none ((storeBackend p).fuel st)).1 =
      (filterKeys pfx st).map Prod.fst := by
  rw [enumLoop_storeBackend]
  have hflen : (filterKeys pfx st).length ≤ st.length := List.length_filter_le _ _
  have : ((filterKeys pfx st).map Prod.fst).length ≤ p * ((storeBackend p).fuel st) := by
    simp only [List.length_map, storeBackend]
    calc (filterKeys pfx st).length ≤ st.length := hflen
      _ ≤ st.length + 1 := Nat.le_succ _
      _ ≤ p * (st.length + 1) := Nat.le_mul_of_pos_left _ hp
  simp [List.take_of_length_le this]

theorem enumLoop_events_listEv (B : Backend σ) (st : σ) (pfx : Key) (fuel : Nat)
    (tok : Option Nat) :
    ∀ e ∈ (enumLoop B st pfx tok fuel).2, e.isListEv = true := by
  induction fuel generalizing tok with
  | zero => simp [enumLoop]
  | succ fuel ih =>
    rw [enumLoop]
    cases hnext : (B.listPage st pfx tok).2 with
    | none =>
      intro e he
      simp only [List.mem_singleton] at he
      simp [he, Event.isListEv]
    | some t =>
      intro e he
      rcases List.mem_cons.mp he with rfl | hmem
      · simp [Event.isListEv]
      · exact ih (some t) e hmem

/-! ### The per-object copy loop -/

theorem copyLoop_events_copyEv (B : Backend σ) (st : σ) (objs : List Key)
    (srcKey destKey : Key) :
    ∀ e ∈ (copyLoop B st objs srcKey destKey).2, e.isCopyEv = true := by
  induction objs generalizing st with
  | nil => simp [copyLoop]
  | cons k ks ih =>
    rw [copyLoop]
    intro e he
    rcases List.mem_cons.mp he with rfl | hmem
    · simp [Event.isCopyEv]
    · exact ih _ e hmem

theorem copyLoop_events_cons (B : Backend σ) (st : σ) (k : Key) (ks : List Key)
    (srcKey destKey : Key) :
    (copyLoop B st (k :: ks) srcKey destKey).2 =
      Event.copy k (destKey ++ k.drop srcKey.length) ::
        (copyLoop B (B.copy st k (destKey ++ k.drop srcKey.length)) ks srcKey destKey).2 := by
  rw [copyLoop]

/-- Keys that do not extend the destination prefix are untouched by the
copy loop. -/
theorem copyLoop_frame (p : Nat) (objs : List Key) (st : Store) (srcKey destKey m : Key)
    (hm : destKey.isPrefixOf m = false) :
    Store.get? (copyLoop (storeBackend p) st objs srcKey destKey).1 m = Store.get? st m := by
  induction objs generalizing st with
  | nil => rw [copyLoop]
  | cons k ks ih =>
    rw [copyLoop]
    simp only
    rw [ih]
    have hne : m ≠ destKey ++ k.drop srcKey.length := by
      intro he
      rw [he, isPrefixOf_append_self] at hm
      exact absurd hm (by simp)
    show Store.get? ((storeBackend p).copy st k (destKey ++ k.drop srcKey.length)) m =
      Store.get? st m
    simp only [storeBackend]
    cases hv : Store.get? st k with
    | none => rfl
    | some v => exact get?_put_ne _ _ _ _ hne

/-- Keys different from every target of the loop are untouched. -/
theorem copyLoop_frame_targets (p : Nat) (objs : List Key) (st : Store)
    (srcKey destKey m : Key)
    (hm : ∀ k ∈ objs, m ≠ destKey ++ k.drop srcKey.length) :
    Store.get? (copyLoop (storeBackend p) st objs srcKey destKey).1 m = Store.get? st m := by
  induction objs generalizing st with
  | nil => rw [copyLoop]
  | cons k ks ih =>
    rw [copyLoop]
    simp only
    rw [ih _ (fun k' hk' => hm k' (List.mem_cons_of_mem _ hk'))]
    show Store.get? ((storeBackend p).copy st k (destKey ++ k.drop srcKey.length)) m =
      Store.get? st m
    simp only [storeBackend]
    cases hv : Store.get? st k with
    | none => rfl
    | some v => exact get?_put_ne _ _ _ _ (hm k (List.mem_cons_self _ _))

/-- Main copy-loop specification: when the source and destination subtrees
are disjoint, every listed source object's body at loop start ends up at
its destination target. -/
theorem copyLoop_spec (p : Nat) (objs : List Key) (st st0 : Store) (srcKey destKey : Key)
    (hsd : srcKey.isPrefixOf destKey = false) (hds : destKey.isPrefixOf srcKey = false)
    (hsrc : ∀ k ∈ objs, srcKey.isPrefixOf k = true)
    (hnd : objs.Nodup)
    (hex : ∀ k ∈ objs, (Store.get? st0 k).isSome = true)
    (hinv : ∀ m, srcKey.isPrefixOf m = true → Store.get? st m = Store.get? st0 m) :
    ∀ k ∈ objs, Store.get? (copyLoop (storeBackend p) st objs srcKey destKey).1
      (destKey ++ k.drop srcKey.length) = Store.get? st0 k := by
  induction objs generalizing st with
  | nil => simp
  | cons k ks ih =>
    have hkpfx : srcKey.isPrefixOf k = true := hsrc k (List.mem_cons_self _ _)
    obtain ⟨v, hv⟩ : ∃ v, Store.get? st0 k = some v := by
      have := hex k (List.mem_cons_self _ _)
      exact Option.isSome_iff_exists.mp this
    have hread : Store.get? st k = some v := by rw [hinv k hkpfx, hv]
    have hcopy : (storeBackend p).copy st k (destKey ++ k.drop srcKey.length) =
        Store.put st (destKey ++ k.drop srcKey.length) v := by
      simp only [storeBackend, hread]
    have hnotsrc : ∀ rel, srcKey.isPrefixOf (destKey ++ rel) = false :=
      srcNotPrefixOfTarget hsd hds
    have hinv' : ∀ m, srcKey.isPrefixOf m = true →
        Store.get? (Store.put st (destKey ++ k.drop srcKey.length) v) m = Store.get? st0 m := by
      intro m hmp
      have hne : m ≠ destKey ++ k.drop srcKey.length := by
        intro he
        rw [he] at hmp
        rw [hnotsrc (k.drop srcKey.length)] at hmp
        exact absurd hmp (by simp)
      rw [get?_put_ne _ _ _ _ hne]
      exact hinv m hmp
    intro k' hk'
    rcases List.mem_cons.mp hk' with rfl | hmem
    · -- the head object: its target survives the rest of the loop
      rw [copyLoop]
      simp only
      rw [hcopy]
      have htargets : ∀ k2 ∈ ks, destKey ++ k'.drop srcKey.length ≠
          destKey ++ k2.drop srcKey.length := by
        intro k2 hk2 he
        have h2pfx : srcKey.isPrefixOf k2 = true := hsrc k2 (List.mem_cons_of_mem _ hk2)
        obtain ⟨r1, hr1⟩ := (isPrefixOf_iff _ _).mp hkpfx
        obtain ⟨r2, hr2⟩ := (isPrefixOf_iff _ _).mp h2pfx
        have hd1 : k'.drop srcKey.length = r1 := by rw [hr1, List.drop_left]
        have hd2 : k2.drop srcKey.length = r2 := by rw [hr2, List.drop_left]
        rw [hd1, hd2] at he
        have : r1 = r2 := List.append_cancel_left he
        have : k' = k2 := by rw [hr1, hr2, this]
        rw [this] at hnd
        exact (List.nodup_cons.mp hnd).1 hk2
      rw [copyLoop_frame_targets p ks _ srcKey destKey _ htargets]
      rw [get?_put_self, hv]
    · rw [copyLoop]
      simp only
      rw [hcopy]
      exact ih _ (fun k2 h2 => hsrc k2 (List.mem_cons_of_mem _ h2))
        (List.nodup_cons.mp hnd).2 (fun k2 h2 => hex k2 (List.mem_cons_of_mem _ h2))
        hinv' k' hmem

/-! ### Ancestor-chain facts -/

theorem mem_ancestorsOf_length {destKey rootPfx m : Key}
    (h : m ∈ ancestorsOf destKey rootPfx) : m.length < destKey.length := by
  rw [ancestorsOf] at h
  obtain ⟨i, _hi, hcond⟩ := List.mem_filterMap.mp h
  by_cases hc : endsSlash (destKey.take (i + 1)) = true ∧ i + 1 < destKey.length ∧
      rootPfx.length < i + 1
  · rw [if_pos hc] at hcond
    obtain rfl : destKey.take (i + 1) = m := by injection hcond
    rw [List.length_take]
    omega
  · rw [if_neg hc] at hcond
    cases hcond

theorem applyUpdateParents_frame (p : Nat) (st : Store) (destKey rootPfx m : Key)
    (h : ∀ a ∈ ancestorsOf destKey rootPfx, a ≠ m) :
    Store.get? (applyUpdateParents (storeBackend p) st destKey rootPfx) m =
      Store.get? st m := by
  rw [applyUpdateParents]
  generalize ancestorsOf destKey rootPfx = l at h
  induction l generalizing st with
  | nil => rfl
  | cons a t ih =>
    rw [List.foldl_cons]
    rw [ih _ (fun a' ha' => h a' (List.mem_cons_of_mem _ ha'))]
    show Store.get? ((storeBackend p).put st a []) m = Store.get? st m
    simp only [storeBackend]
    exact get?_put_ne _ _ _ _ (fun he => h a (List.mem_cons_self _ _) he.symm)

/-! ### Parent-step facts -/

theorem parentStep_state_cases (B : Backend σ) (st : σ) (destKey : Key) :
    (parentStep B st destKey).1 = st ∨
      (parentStep B st destKey).1 = B.put st (dirParent destKey) [] := by
  rw [parentStep]
  by_cases h1 : '/' ∈ destKey
  · rw [if_pos h1]
    by_cases h2 : checkDirectoryExists B st (dirParent destKey) = true
    · rw [if_pos h2]
      exact Or.inl rfl
    · rw [if_neg h2]
      exact Or.inr rfl
  · rw [if_neg h1]
    exact Or.inl rfl

theorem parentStep_events (B : Backend σ) (st : σ) (destKey : Key) :
    ∀ e ∈ (parentStep B st destKey).2, e.isCopyEv = false ∧ e.isUpdEv = false ∧
      e.isListEv = false ∧ e.isDeleteEv = false := by
  rw [parentStep]
  by_cases h1 : '/' ∈ destKey
  · rw [if_pos h1]
    by_cases h2 : checkDirectoryExists B st (dirParent destKey) = true
    · rw [if_pos h2]
      intro e he
      simp only [List.mem_singleton] at he
      simp [he, Event.isCopyEv, Event.isUpdEv, Event.isListEv, Event.isDeleteEv]
    · rw [if_neg h2]
      intro e he
      rcases List.mem_cons.mp he with rfl | he2
      · simp [Event.isCopyEv, Event.isUpdEv, Event.isListEv, Event.isDeleteEv]
      · simp only [List.mem_singleton] at he2
        simp [he2, Event.isCopyEv, Event.isUpdEv, Event.isListEv, Event.isDeleteEv]
  · rw [if_neg h1]
    intro e he
    simp at he

theorem parentStep_frame (p : Nat) (st : Store) (destKey m : Key)
    (hm : m ≠ dirParent destKey) :
    Store.get? (parentStep (storeBackend p) st destKey).1 m = Store.get? st m := by
  rcases parentStep_state_cases (storeBackend p) st destKey with h | h
  · rw [h]
  · rw [h]
    show Store.get? (Store.put st (dirParent destKey) []) m = Store.get? st m
    exact get?_put_ne _ _ _ _ hm

/-- When the destination key is already present, the parent step does not
touch any key extending the destination: either the parent is a proper
prefix of the destination, or — for a directory destination — the parent
is the destination itself, whose presence makes the existence probe
succeed so that nothing is written. -/
theorem parentStep_frame_of_dest_present (p : Nat) (st : Store) (destKey : Key) {v : Key}
    (hv : Store.get? st destKey = some v) (m : Key)
    (hm : destKey.isPrefixOf m = true) :
    Store.get? (parentStep (storeBackend p) st destKey).1 m = Store.get? st m := by
  rw [parentStep]
  by_cases h1 : '/' ∈ destKey
  · rw [if_pos h1]
    by_cases h2 : checkDirectoryExists (storeBackend p) st (dirParent destKey) = true
    · rw [if_pos h2]
    · rw [if_neg h2]
      show Store.get? (Store.put st (dirParent destKey) []) m = Store.get? st m
      have hPne : dirParent destKey ≠ destKey := by
        intro he
        apply h2
        rw [checkDirectoryExists, he]
        have hh : (storeBackend p).head st destKey = true := by
          show (Store.get? st destKey).isSome = true
          rw [hv]
          rfl
        rw [hh, Bool.true_or]
      refine get?_put_ne _ _ _ _ ?_
      intro he
      apply hPne
      have h3 : destKey.isPrefixOf (dirParent destKey) = true := by
        rw [← he]
        exact hm
      exact eq_of_isPrefixOf_of_length_le (dirParent_isPrefixOf destKey)
        (length_le_of_isPrefixOf h3)
  · rw [if_neg h1]

/-! ### Reduction of the handler to its transfer stage under the guards -/

theorem handleCopy_eq_copyStage (B : Backend σ) (resolve : Key → MountResolution)
    (configOf : Nat → Option S3Config) (req : CopyRequest) (st : σ) (dp : Key)
    (cfg : S3Config)
    (h1 : (resolve req.path).error = none)
    (h2 : parseDestinationPath req.destinationHeader = some dp)
    (h3 : req.path ≠ dp)
    (h4 : (resolve dp).isRoot = false)
    (h5 : (resolve dp).error = none)
    (h6 : (resolve req.path).mount.id = (resolve dp).mount.id)
    (h7 : ¬(depthOf req.depthHeader ≠ "0".toList ∧ depthOf req.depthHeader ≠ "infinity".toList))
    (h8 : configOf (resolve req.path).mount.storage_config_id = some cfg) :
    handleCopy B resolve configOf req st =
      copyStage B st
        (s3KeyPair cfg (resolve req.path).subPath (resolve dp).subPath req.path).1
        (s3KeyPair cfg (resolve req.path).subPath (resolve dp).subPath req.path).2
        (endsSlash req.path) (depthOf req.depthHeader)
        (decide (req.overwriteHeader ≠ some ['F'])) (rootPrefixOf cfg)
        (resolve req.path).mount.id := by
  simp only [handleCopy, handleCopyCore, h1, h2, h4, h5, h8]
  rw [if_neg h3,
    if_neg (show ¬((resolve req.path).mount.id ≠ (resolve dp).mount.id) from
      fun hne => hne h6),
    if_neg h7]
  simp

theorem destKeyOf_eq (resolve : Key → MountResolution) (configOf : Nat → Option S3Config)
    (req : CopyRequest) (dp : Key) (cfg : S3Config)
    (h2 : parseDestinationPath req.destinationHeader = some dp)
    (h8 : configOf (resolve req.path).mount.storage_config_id = some cfg) :
    destKeyOf resolve configOf req =
      (s3KeyPair cfg (resolve req.path).subPath (resolve dp).subPath req.path).2 := by
  rw [destKeyOf]
  simp [cfgOfReq, h2, h8]

theorem srcKeyOf_eq (resolve : Key → MountResolution) (configOf : Nat → Option S3Config)
    (req : CopyRequest) (dp : Key) (cfg : S3Config)
    (h2 : parseDestinationPath req.destinationHeader = some dp)
    (h8 : configOf (resolve req.path).mount.storage_config_id = some cfg) :
    srcKeyOf resolve configOf req =
      (s3KeyPair cfg (resolve req.path).subPath (resolve dp).subPath req.path).1 := by
  rw [srcKeyOf]
  simp [cfgOfReq, h2, h8]

theorem rootPfxOf_eq (resolve : Key → MountResolution) (configOf : Nat → Option S3Config)
    (req : CopyRequest) (cfg : S3Config)
    (h8 : configOf (resolve req.path).mount.storage_config_id = some cfg) :
    rootPfxOf resolve configOf req = rootPrefixOf cfg := by
  rw [rootPfxOf]
  simp [cfgOfReq, h8]

/-- With overwriting allowed, the transfer stage can never answer 412. -/
theorem copyStage_status_ne_412 (B : Backend σ) (st : σ) (srcKey destKey : Key)
    (isDir : Bool) (depth rootPfx : Key) (mid : Nat) :
    (copyStage B st srcKey destKey isDir depth true rootPfx mid).status ≠ 412 := by
  rw [copyStage]
  simp only [Bool.not_true, Bool.and_false]
  split_ifs <;> simp_all

/-! ### Claim C5 -/

/-- C5: every COPY request whose source path and destination path resolve
to two different mounts is answered with status 502 (cross-mount transfer
unsupported), with no storage call performed and the bucket unchanged,
regardless of path validity. -/
theorem crossMount_bad_gateway (B : Backend σ) (resolve : Key → MountResolution)
    (configOf : Nat → Option S3Config) (req : CopyRequest) (st : σ) (dp : Key)
    (h1 : (resolve req.path).error = none)
    (h2 : parseDestinationPath req.destinationHeader = some dp)
    (h3 : req.path ≠ dp)
    (h4 : (resolve dp).isRoot = false)
    (h5 : (resolve dp).error = none)
    (h6 : (resolve req.path).mount.id ≠ (resolve dp).mount.id) :
    (handleCopy B resolve configOf req st).status = 502 ∧
    (handleCopy B resolve configOf req st).events = [] ∧
    (handleCopy B resolve configOf req st).state = st := by
  simp only [handleCopy, handleCopyCore, h1, h2, h4, h5]
  rw [if_neg h3, if_pos h6]
  simp

/-- Witness for C5 at a concrete cross-mount request. -/
theorem crossMount_bad_gateway_witness :
    (handleCopy (storeBackend 2) exResolve exConfigOf reqCross storeFiles).status = 502 ∧
    (handleCopy (storeBackend 2) exResolve exConfigOf reqCross storeFiles).events = [] ∧
    (handleCopy (storeBackend 2) exResolve exConfigOf reqCross storeFiles).state =
      storeFiles :=
  crossMount_bad_gateway (storeBackend 2) exResolve exConfigOf reqCross storeFiles
    ("/n/h".toList) (by decide) (by decide) (by decide) (by decide) (by decide) (by decide)

/-! ### Claim C7 -/

/-- C7: a COPY whose parsed `Destination` path equals the source path
performs no storage call and leaves the bucket unchanged, and — whenever
the source mount resolution itself succeeds — returns status 400. -/
theorem samePath_bad_request (B : Backend σ) (resolve : Key → MountResolution)
    (configOf : Nat → Option S3Config) (req : CopyRequest) (st : σ)
    (hparse : parseDestinationPath req.destinationHeader = some req.path) :
    (handleCopy B resolve configOf req st).events = [] ∧
    (handleCopy B resolve configOf req st).state = st ∧
    ((resolve req.path).error = none → (handleCopy B resolve configOf req st).status = 400) := by
  cases herr : (resolve req.path).error with
  | some e =>
    have hout : handleCopy B resolve configOf req st = ⟨e, [], st⟩ := by
      simp only [handleCopy, handleCopyCore, herr]
    rw [hout]
    refine ⟨rfl, rfl, fun h => ?_⟩
    simp at h
  | none =>
    have hout : handleCopy B resolve configOf req st = ⟨400, [], st⟩ := by
      simp only [handleCopy, handleCopyCore, herr, hparse]
      rw [if_pos trivial]
    rw [hout]
    exact ⟨rfl, rfl, fun _ => rfl⟩

/-- Witness for C7 at a concrete request copying `/m/f` onto itself. -/
theorem samePath_bad_request_witness :
    (handleCopy (storeBackend 2) exResolve exConfigOf reqSame storeFiles).events = [] ∧
    (handleCopy (storeBackend 2) exResolve exConfigOf reqSame storeFiles).state =
      storeFiles ∧
    (handleCopy (storeBackend 2) exResolve exConfigOf reqSame storeFiles).status = 400 := by
  have h := samePath_bad_request (storeBackend 2) exResolve exConfigOf reqSame storeFiles
    (by decide)
  exact ⟨h.1, h.2.1, h.2.2 (by decide)⟩

/-! ### Claim C9 -/

/-- C9: a COPY with no `Depth` header behaves exactly like one with
`Depth: infinity` (it is not rejected), and — for a request that passes
the earlier guards — an explicit non-empty `Depth` value other than `0`
and `infinity` yields status 400.  (An explicit empty value is falsy in
the source and also defaults to `infinity`.) -/
theorem depth_default_infinity (B : Backend σ) (resolve : Key → MountResolution)
    (configOf : Nat → Option S3Config) (req : CopyRequest) (st : σ) :
    handleCopy B resolve configOf { req with depthHeader := none } st =
      handleCopy B resolve configOf { req with depthHeader := some ("infinity".toList) } st
    ∧ ∀ dp s, (resolve req.path).error = none →
        parseDestinationPath req.destinationHeader = some dp → req.path ≠ dp →
        (resolve dp).isRoot = false → (resolve dp).error = none →
        (resolve req.path).mount.id = (resolve dp).mount.id →
        req.depthHeader = some s → s ≠ [] → s ≠ "0".toList → s ≠ "infinity".toList →
        (handleCopy B resolve configOf req st).status = 400 := by
  constructor
  · rfl
  · intro dp s h1 h2 h3 h4 h5 h6 hdh hse hs0 hsi
    have hd : depthOf req.depthHeader = s := by
      rw [hdh, depthOf, if_neg hse]
    simp only [handleCopy, handleCopyCore, h1, h2, h4, h5]
    rw [if_neg h3,
      if_neg (show ¬((resolve req.path).mount.id ≠ (resolve dp).mount.id) from
        fun hne => hne h6),
      hd]
    rw [if_pos (show s ≠ "0".toList ∧ s ≠ "infinity".toList from ⟨hs0, hsi⟩)]
    simp

/-- Witness for C9: the equational part at a concrete request, and the 400
outcome for the concrete invalid header `Depth: 2`. -/
theorem depth_default_infinity_witness :
    (handleCopy (storeBackend 2) exResolve exConfigOf
        { reqFile with depthHeader := none } storeFiles =
      handleCopy (storeBackend 2) exResolve exConfigOf
        { reqFile with depthHeader := some ("infinity".toList) } storeFiles) ∧
    (handleCopy (storeBackend 2) exResolve exConfigOf reqBadDepth storeFiles).status = 400 :=
  ⟨(depth_default_infinity (storeBackend 2) exResolve exConfigOf reqFile storeFiles).1,
   (depth_default_infinity (storeBackend 2) exResolve exConfigOf reqBadDepth storeFiles).2
     ("/m/g".toList) ("2".toList) (by decide) (by decide) (by decide) (by decide)
     (by decide) (by decide) (by decide) (by decide) (by decide) (by decide)⟩

/-! ### Claim C3 -/

/-- C3: a COPY with `Overwrite: F` whose destination key already exists is
answered with 412 and the destination subtree is untouched; conversely,
with any other `Overwrite` value or none (and mount-resolution errors that
are not themselves 412), the handler never answers 412 — overwriting is
allowed. -/
theorem overwriteF_precondition_failed (p : Nat) (resolve : Key → MountResolution)
    (configOf : Nat → Option S3Config) (req : CopyRequest) (st : Store) (dp : Key)
    (cfg : S3Config) (v : Key)
    (h1 : (resolve req.path).error = none)
    (h2 : parseDestinationPath req.destinationHeader = some dp)
    (h3 : req.path ≠ dp)
    (h4 : (resolve dp).isRoot = false)
    (h5 : (resolve dp).error = none)
    (h6 : (resolve req.path).mount.id = (resolve dp).mount.id)
    (h7 : ¬(depthOf req.depthHeader ≠ "0".toList ∧
      depthOf req.depthHeader ≠ "infinity".toList))
    (h8 : configOf (resolve req.path).mount.storage_config_id = some cfg)
    (hov : req.overwriteHeader = some ['F'])
    (hex : Store.get? st (destKeyOf resolve configOf req) = some v) :
    ((handleCopy (storeBackend p) resolve configOf req st).status = 412 ∧
     ∀ m, (destKeyOf resolve configOf req).isPrefixOf m = true →
       Store.get? (handleCopy (storeBackend p) resolve configOf req st).state m =
         Store.get? st m) ∧
    (∀ (σ' : Type) (B' : Backend σ') (resolve' : Key → MountResolution)
       (configOf' : Nat → Option S3Config) (req' : CopyRequest) (st' : σ'),
      (∀ e, (resolve' req'.path).error = some e → e ≠ 412) →
      (∀ dp' e, parseDestinationPath req'.destinationHeader = some dp' →
        (resolve' dp').error = some e → e ≠ 412) →
      req'.overwriteHeader ≠ some ['F'] →
      (handleCopy B' resolve' configOf' req' st').status ≠ 412) := by
  constructor
  · have hDK := destKeyOf_eq resolve configOf req dp cfg h2 h8
    rw [hDK] at hex ⊢
    rw [handleCopy_eq_copyStage (storeBackend p) resolve configOf req st dp cfg
      h1 h2 h3 h4 h5 h6 h7 h8]
    set DK := (s3KeyPair cfg (resolve req.path).subPath (resolve dp).subPath req.path).2
      with hDKdef
    have hallow : decide (req.overwriteHeader ≠ some ['F']) = false := by
      rw [hov]
      decide
    rw [hallow]
    have hhead : (storeBackend p).head (parentStep (storeBackend p) st DK).1 DK = true := by
      show (Store.get? (parentStep (storeBackend p) st DK).1 DK).isSome = true
      rw [parentStep_frame_of_dest_present p st DK hex DK (isPrefixOf_self DK), hex]
      rfl
    constructor
    · rw [copyStage]
      simp only [Bool.not_false, Bool.and_true, hhead]
      rw [if_pos trivial]
    · intro m hm
      rw [copyStage]
      simp only [Bool.not_false, Bool.and_true, hhead]
      rw [if_pos trivial]
      exact parentStep_frame_of_dest_present p st DK hex m hm
  · intro σ' B' resolve' configOf' req' st' hsrc hdst hov'
    cases herr : (resolve' req'.path).error with
    | some e =>
      have hout : handleCopy B' resolve' configOf' req' st' = ⟨e, [], st'⟩ := by
        simp only [handleCopy, handleCopyCore, herr]
      rw [hout]
      exact hsrc e herr
    | none =>
      cases hp : parseDestinationPath req'.destinationHeader with
      | none =>
        have hout : handleCopy B' resolve' configOf' req' st' = ⟨400, [], st'⟩ := by
          simp only [handleCopy, handleCopyCore, herr, hp]
        rw [hout]
        simp
      | some dp' =>
        by_cases hpd : req'.path = dp'
        · have hout : handleCopy B' resolve' configOf' req' st' = ⟨400, [], st'⟩ := by
            simp only [handleCopy, handleCopyCore, herr, hp]
            rw [if_pos hpd]
          rw [hout]
          simp
        · cases hroot : (resolve' dp').isRoot with
          | true =>
            have hout : handleCopy B' resolve' configOf' req' st' = ⟨403, [], st'⟩ := by
              simp only [handleCopy, handleCopyCore, herr, hp, hroot]
              rw [if_neg hpd]
              simp
            rw [hout]
            simp
          | false =>
            cases herr2 : (resolve' dp').error with
            | some e =>
              have hout : handleCopy B' resolve' configOf' req' st' = ⟨e, [], st'⟩ := by
                simp only [handleCopy, handleCopyCore, herr, hp, hroot, herr2]
                rw [if_neg hpd]
                simp
              rw [hout]
              exact hdst dp' e hp herr2
            | none =>
              by_cases hm : (resolve' req'.path).mount.id ≠ (resolve' dp').mount.id
              · have hout : handleCopy B' resolve' configOf' req' st' = ⟨502, [], st'⟩ := by
                  simp only [handleCopy, handleCopyCore, herr, hp, hroot, herr2]
                  rw [if_neg hpd]
                  simp only [if_pos hm]
                  simp
                rw [hout]
                simp
              · by_cases hdep : depthOf req'.depthHeader ≠ "0".toList ∧
                    depthOf req'.depthHeader ≠ "infinity".toList
                · have hout : handleCopy B' resolve' configOf' req' st' = ⟨400, [], st'⟩ := by
                    simp only [handleCopy, handleCopyCore, herr, hp, hroot, herr2]
                    rw [if_neg hpd, if_neg hm, if_pos hdep]
                    simp
                  rw [hout]
                  simp
                · cases hcfg : configOf' (resolve' req'.path).mount.storage_config_id with
                  | none =>
                    have hout : handleCopy B' resolve' configOf' req' st' = ⟨404, [], st'⟩ := by
                      simp only [handleCopy, handleCopyCore, herr, hp, hroot, herr2, hcfg]
                      rw [if_neg hpd, if_neg hm, if_neg hdep]
                      simp
                    rw [hout]
                    simp
                  | some cfg' =>
                    rw [handleCopy_eq_copyStage B' resolve' configOf' req' st' dp' cfg'
                      herr hp hpd hroot herr2 (not_ne_iff.mp hm) hdep hcfg]
                    rw [show decide (req'.overwriteHeader ≠ some ['F']) = true from
                      decide_eq_true hov']
                    exact copyStage_status_ne_412 B' st' _ _ _ _ _ _

/-- Witness for C3 at a concrete request: `Overwrite: F` over the existing
destination file `g` yields 412 and leaves `g` intact. -/
theorem overwriteF_precondition_failed_witness :
    (handleCopy (storeBackend 2) exResolve exConfigOf reqFileOverF storeFiles).status = 412 ∧
    Store.get? (handleCopy (storeBackend 2) exResolve exConfigOf reqFileOverF
      storeFiles).state ("g".toList) = Store.get? storeFiles ("g".toList) := by
  have h := overwriteF_precondition_failed 2 exResolve exConfigOf reqFileOverF storeFiles
    ("/m/g".toList) exCfg ("G".toList) (by decide) (by decide) (by decide) (by decide)
    (by decide) (by decide) (by decide) (by decide) (by decide) (by decide)
  exact ⟨h.1.1, h.1.2 ("g".toList) (by decide)⟩

theorem parentStep_any_false (B : Backend σ) (st : σ) (destKey : Key) :
    (parentStep B st destKey).2.any Event.isListEv = false ∧
    (parentStep B st destKey).2.any Event.isCopyEv = false := by
  constructor
  · rw [List.any_eq_false]
    intro e he
    rw [(parentStep_events B st destKey e he).2.2.1]
    simp
  · rw [List.any_eq_false]
    intro e he
    rw [(parentStep_events B st destKey e he).1]
    simp

theorem countUpd_append (a b : List Event) : countUpd (a ++ b) = countUpd a + countUpd b :=
  List.countP_append _ _ _

theorem countUpd_cons (e : Event) (l : List Event) :
    countUpd (e :: l) = countUpd l + (if Event.isUpdEv e = true then 1 else 0) :=
  List.countP_cons _ _ _

theorem countUpd_nil : countUpd [] = 0 := rfl

theorem listEv_excl {e : Event} (h : e.isListEv = true) :
    e.isUpdEv = false ∧ e.isCopyEv = false := by
  cases e <;> simp [Event.isListEv, Event.isUpdEv, Event.isCopyEv] at h ⊢

theorem copyEv_not_upd {e : Event} (h : e.isCopyEv = true) : e.isUpdEv = false := by
  cases e <;> simp [Event.isCopyEv, Event.isUpdEv] at h ⊢

theorem parentStep_countUpd (B : Backend σ) (st : σ) (destKey : Key) :
    countUpd (parentStep B st destKey).2 = 0 := by
  rw [countUpd, List.countP_eq_zero]
  intro e he
  rw [(parentStep_events B st destKey e he).2.1]
  simp

theorem enumLoop_countUpd (B : Backend σ) (st : σ) (pfx : Key) (tok : Option Nat)
    (fuel : Nat) : countUpd (enumLoop B st pfx tok fuel).2 = 0 := by
  rw [countUpd, List.countP_eq_zero]
  intro e he
  rw [(listEv_excl (enumLoop_events_listEv B st pfx fuel tok e he)).1]
  simp

theorem enumLoop_anyCopy (B : Backend σ) (st : σ) (pfx : Key) (tok : Option Nat)
    (fuel : Nat) : (enumLoop B st pfx tok fuel).2.any Event.isCopyEv = false := by
  rw [List.any_eq_false]
  intro e he
  rw [(listEv_excl (enumLoop_events_listEv B st pfx fuel tok e he)).2]
  simp

theorem copyLoop_countUpd (B : Backend σ) (st : σ) (objs : List Key)
    (srcKey destKey : Key) : countUpd (copyLoop B st objs srcKey destKey).2 = 0 := by
  rw [countUpd, List.countP_eq_zero]
  intro e he
  rw [copyEv_not_upd (copyLoop_events_copyEv B st objs srcKey destKey e he)]
  simp

/-- Every execution of the handler either exits during the guards with an
empty trace and unchanged state, or runs the transfer stage on the
computed keys. -/
theorem handleCopy_cases (B : Backend σ) (resolve : Key → MountResolution)
    (configOf : Nat → Option S3Config) (req : CopyRequest) (st : σ) :
    (∃ code, handleCopy B resolve configOf req st = ⟨code, [], st⟩) ∨
    (∃ dp cfg, parseDestinationPath req.destinationHeader = some dp ∧
      configOf (resolve req.path).mount.storage_config_id = some cfg ∧
      handleCopy B resolve configOf req st =
        copyStage B st
          (s3KeyPair cfg (resolve req.path).subPath (resolve dp).subPath req.path).1
          (s3KeyPair cfg (resolve req.path).subPath (resolve dp).subPath req.path).2
          (endsSlash req.path) (depthOf req.depthHeader)
          (decide (req.overwriteHeader ≠ some ['F'])) (rootPrefixOf cfg)
          (resolve req.path).mount.id) := by
  cases herr : (resolve req.path).error with
  | some e =>
    exact Or.inl ⟨e, by simp only [handleCopy, handleCopyCore, herr]⟩
  | none =>
    cases hp : parseDestinationPath req.destinationHeader with
    | none => exact Or.inl ⟨400, by simp only [handleCopy, handleCopyCore, herr, hp]⟩
    | some dp =>
      by_cases hpd : req.path = dp
      · refine Or.inl ⟨400, ?_⟩
        simp only [handleCopy, handleCopyCore, herr, hp]
        rw [if_pos hpd]
      · cases hroot : (resolve dp).isRoot with
        | true =>
          refine Or.inl ⟨403, ?_⟩
          simp only [handleCopy, handleCopyCore, herr, hp, hroot]
          rw [if_neg hpd]
          simp
        | false =>
          cases herr2 : (resolve dp).error with
          | some e =>
            refine Or.inl ⟨e, ?_⟩
            simp only [handleCopy, handleCopyCore, herr, hp, hroot, herr2]
            rw [if_neg hpd]
            simp
          | none =>
            by_cases hm : (resolve req.path).mount.id ≠ (resolve dp).mount.id
            · refine Or.inl ⟨502, ?_⟩
              simp only [handleCopy, handleCopyCore, herr, hp, hroot, herr2]
              rw [if_neg hpd]
              simp only [if_pos hm]
              simp
            · by_cases hdep : depthOf req.depthHeader ≠ "0".toList ∧
                  depthOf req.depthHeader ≠ "infinity".toList
              · refine Or.inl ⟨400, ?_⟩
                simp only [handleCopy, handleCopyCore, herr, hp, hroot, herr2]
                rw [if_neg hpd, if_neg hm, if_pos hdep]
                simp
              · cases hcfg : configOf (resolve req.path).mount.storage_config_id with
                | none =>
                  refine Or.inl ⟨404, ?_⟩
                  simp only [handleCopy, handleCopyCore, herr, hp, hroot, herr2, hcfg]
                  rw [if_neg hpd, if_neg hm, if_neg hdep]
                  simp
                | some cfg =>
                  exact Or.inr ⟨dp, cfg, rfl, rfl,
                    handleCopy_eq_copyStage B resolve configOf req st dp cfg herr hp hpd
                      hroot herr2 (not_ne_iff.mp hm) hdep hcfg⟩

/-- Trace shape of the transfer stage: the propagation call appears exactly
once when an object copy happened (and then only after every copy), and
never otherwise. -/
theorem copyStage_trace (B : Backend σ) (st : σ) (srcKey destKey : Key) (isDir : Bool)
    (depth : Key) (allow : Bool) (rootPfx : Key) (mid : Nat) :
    countUpd (copyStage B st srcKey destKey isDir depth allow rootPfx mid).events =
      (if (copyStage B st srcKey destKey isDir depth allow rootPfx mid).events.any
          Event.isCopyEv = true then 1 else 0) ∧
    ∃ pre post,
      (copyStage B st srcKey destKey isDir depth allow rootPfx mid).events =
        pre ++ post ∧
      countUpd pre = 0 ∧ post.any Event.isCopyEv = false := by
  have hpar0 := parentStep_countUpd B st destKey
  have hparC := (parentStep_any_false B st destKey).2
  rw [copyStage]
  simp only []
  by_cases hovw : (B.head (parentStep B st destKey).1 destKey && !allow) = true
  · rw [if_pos hovw]
    refine ⟨?_, _, [], (List.append_nil _).symm, ?_, rfl⟩ <;>
      simp [countUpd_append, countUpd_cons, countUpd_nil, hpar0, List.any_append,
        hparC, Event.isCopyEv, Event.isUpdEv]
  · rw [if_neg hovw]
    cases hd : isDir with
    | true =>
      rw [if_pos rfl]
      by_cases h0 : depth = "0".toList
      · rw [if_pos h0]
        refine ⟨?_, _, [], (List.append_nil _).symm, ?_, rfl⟩ <;>
          simp [countUpd_append, countUpd_cons, countUpd_nil, hpar0, List.any_append,
            hparC, Event.isCopyEv, Event.isUpdEv]
      · rw [if_neg h0]
        have henum0 := enumLoop_countUpd B (parentStep B st destKey).1 srcKey none
          (B.fuel (parentStep B st destKey).1)
        have henumC := enumLoop_anyCopy B (parentStep B st destKey).1 srcKey none
          (B.fuel (parentStep B st destKey).1)
        by_cases hemp : (enumLoop B (parentStep B st destKey).1 srcKey none
            (B.fuel (parentStep B st destKey).1)).1 = []
        · rw [if_pos hemp]
          by_cases hsrc : B.head (parentStep B st destKey).1 srcKey = true
          · rw [if_pos hsrc]
            refine ⟨?_, _, [], (List.append_nil _).symm, ?_, rfl⟩ <;>
              simp [countUpd_append, countUpd_cons, countUpd_nil, hpar0, henum0,
                List.any_append, hparC, henumC, Event.isCopyEv, Event.isUpdEv]
          · rw [if_neg hsrc]
            refine ⟨?_, _, [], (List.append_nil _).symm, ?_, rfl⟩ <;>
              simp [countUpd_append, countUpd_cons, countUpd_nil, hpar0, henum0,
                List.any_append, hparC, henumC, Event.isCopyEv, Event.isUpdEv]
        · rw [if_neg hemp]
          have hcl0 := copyLoop_countUpd B (parentStep B st destKey).1
            (enumLoop B (parentStep B st destKey).1 srcKey none
              (B.fuel (parentStep B st destKey).1)).1 srcKey destKey
          obtain ⟨k, ks, hk⟩ := List.exists_cons_of_ne_nil hemp
          have hclC : (copyLoop B (parentStep B st destKey).1
              (enumLoop B (parentStep B st destKey).1 srcKey none
                (B.fuel (parentStep B st destKey).1)).1 srcKey destKey).2.any
              Event.isCopyEv = true := by
            rw [hk, copyLoop_events_cons]
            simp [Event.isCopyEv]
          constructor
          · simp [countUpd_append, countUpd_cons, countUpd_nil, hpar0, henum0, hcl0,
              List.any_append, hclC, Event.isUpdEv]
          · refine ⟨(parentStep B st destKey).2 ++ [Event.head destKey] ++
              (enumLoop B (parentStep B st destKey).1 srcKey none
                (B.fuel (parentStep B st destKey).1)).2 ++
              (copyLoop B (parentStep B st destKey).1
                (enumLoop B (parentStep B st destKey).1 srcKey none
                  (B.fuel (parentStep B st destKey).1)).1 srcKey destKey).2,
              [Event.updateParents destKey rootPfx, Event.clearCache destKey true,
                Event.updateMount mid], ?_, ?_, ?_⟩
            · simp [List.append_assoc]
            · simp [countUpd_append, countUpd_cons, countUpd_nil, hpar0, henum0, hcl0,
                Event.isUpdEv]
            · simp [Event.isCopyEv]
    | false =>
      rw [if_neg (show ¬(false = true) by simp)]
      by_cases hsrc : B.head (parentStep B st destKey).1 srcKey = true
      · rw [if_pos hsrc]
        constructor
        · simp [countUpd_append, countUpd_cons, countUpd_nil, hpar0, List.any_append,
            hparC, Event.isCopyEv, Event.isUpdEv]
        · refine ⟨(parentStep B st destKey).2 ++ [Event.head destKey] ++
            [Event.head srcKey, Event.copy srcKey destKey],
            [Event.updateParents destKey rootPfx, Event.clearCache destKey false,
              Event.updateMount mid], ?_, ?_, ?_⟩
          · simp [List.append_assoc]
          · simp [countUpd_append, countUpd_cons, countUpd_nil, hpar0, Event.isUpdEv]
          · simp [Event.isCopyEv]
      · rw [if_neg hsrc]
        refine ⟨?_, _, [], (List.append_nil _).symm, ?_, rfl⟩ <;>
          simp [countUpd_append, countUpd_cons, countUpd_nil, hpar0, List.any_append,
            hparC, Event.isCopyEv, Event.isUpdEv]

/-! ### Claim C2 -/

/-- C2 (amended): on every execution of the handler, the ancestor
timestamp propagation runs exactly once when at least one object copy was
performed (file copy or non-empty recursive directory copy) and not at all
otherwise (guard exits, 412, Depth-0 and empty-directory marker copies);
when it runs, it runs only after every per-object copy call. -/
theorem timestampPropagation_after_transfer (B : Backend σ)
    (resolve : Key → MountResolution) (configOf : Nat → Option S3Config)
    (req : CopyRequest) (st : σ) :
    countUpd (handleCopy B resolve configOf req st).events =
      (if (handleCopy B resolve configOf req st).events.any Event.isCopyEv = true
        then 1 else 0) ∧
    ∃ pre post, (handleCopy B resolve configOf req st).events = pre ++ post ∧
      countUpd pre = 0 ∧ post.any Event.isCopyEv = false := by
  rcases handleCopy_cases B resolve configOf req st with ⟨code, heq⟩ | ⟨dp, cfg, _, _, heq⟩
  · rw [heq]
    exact ⟨rfl, [], [], rfl, rfl, rfl⟩
  · rw [heq]
    exact copyStage_trace B st _ _ _ _ _ _ _

/-- Counterexample to C2 as stated: a successful Depth-0 directory copy
(201) in which the ancestor timestamp propagation runs zero times, not
once. -/
theorem timestampPropagation_depth0_cex :
    (handleCopy (storeBackend 2) exResolve exConfigOf reqDepth0 storeTwoDirs).status =
      201 ∧
    countUpd (handleCopy (storeBackend 2) exResolve exConfigOf reqDepth0
      storeTwoDirs).events = 0 := by
  decide

theorem listEv_not_delete {e : Event} (h : e.isListEv = true) : e.isDeleteEv = false := by
  cases e <;> simp [Event.isListEv, Event.isDeleteEv] at h ⊢

theorem copyEv_not_delete {e : Event} (h : e.isCopyEv = true) : e.isDeleteEv = false := by
  cases e <;> simp [Event.isCopyEv, Event.isDeleteEv] at h ⊢

theorem parentStep_anyDelete (B : Backend σ) (st : σ) (destKey : Key) :
    (parentStep B st destKey).2.any Event.isDeleteEv = false := by
  rw [List.any_eq_false]
  intro e he
  rw [(parentStep_events B st destKey e he).2.2.2]
  simp

theorem enumLoop_anyDelete (B : Backend σ) (st : σ) (pfx : Key) (tok : Option Nat)
    (fuel : Nat) : (enumLoop B st pfx tok fuel).2.any Event.isDeleteEv = false := by
  rw [List.any_eq_false]
  intro e he
  rw [listEv_not_delete (enumLoop_events_listEv B st pfx fuel tok e he)]
  simp

theorem copyLoop_anyDelete (B : Backend σ) (st : σ) (objs : List Key)
    (srcKey destKey : Key) :
    (copyLoop B st objs srcKey destKey).2.any Event.isDeleteEv = false := by
  rw [List.any_eq_false]
  intro e he
  rw [copyEv_not_delete (copyLoop_events_copyEv B st objs srcKey destKey e he)]
  simp

/-- No branch of the transfer stage ever issues a delete. -/
theorem copyStage_no_delete (B : Backend σ) (st : σ) (srcKey destKey : Key)
    (isDir : Bool) (depth : Key) (allow : Bool) (rootPfx : Key) (mid : Nat) :
    (copyStage B st srcKey destKey isDir depth allow rootPfx mid).events.any
      Event.isDeleteEv = false := by
  have hpar := parentStep_anyDelete B st destKey
  rw [copyStage]
  simp only []
  by_cases hovw : (B.head (parentStep B st destKey).1 destKey && !allow) = true
  · rw [if_pos hovw]
    simp [List.any_append, hpar, Event.isDeleteEv]
  · rw [if_neg hovw]
    cases isDir with
    | true =>
      rw [if_pos rfl]
      by_cases h0 : depth = "0".toList
      · rw [if_pos h0]
        simp [List.any_append, hpar, Event.isDeleteEv]
      · rw [if_neg h0]
        have he := enumLoop_anyDelete B (parentStep B st destKey).1 srcKey none
          (B.fuel (parentStep B st destKey).1)
        by_cases hemp : (enumLoop B (parentStep B st destKey).1 srcKey none
            (B.fuel (parentStep B st destKey).1)).1 = []
        · rw [if_pos hemp]
          by_cases hsrc : B.head (parentStep B st destKey).1 srcKey = true
          · rw [if_pos hsrc]
            simp [List.any_append, hpar, he, Event.isDeleteEv]
          · rw [if_neg hsrc]
            simp [List.any_append, hpar, he, Event.isDeleteEv]
        · rw [if_neg hemp]
          have hc := copyLoop_anyDelete B (parentStep B st destKey).1
            (enumLoop B (parentStep B st destKey).1 srcKey none
              (B.fuel (parentStep B st destKey).1)).1 srcKey destKey
          simp [List.any_append, hpar, he, hc, Event.isDeleteEv]
    | false =>
      rw [if_neg (show ¬(false = true) by simp)]
      by_cases hsrc : B.head (parentStep B st destKey).1 srcKey = true
      · rw [if_pos hsrc]
        simp [List.any_append, hpar, Event.isDeleteEv]
      · rw [if_neg hsrc]
        simp [List.any_append, hpar, Event.isDeleteEv]

theorem storeBackend_copy_frame (p : Nat) (s : Store) (a b m : Key) (hm : m ≠ b) :
    Store.get? ((storeBackend p).copy s a b) m = Store.get? s m := by
  simp only [storeBackend]
  cases hv : Store.get? s a with
  | none => rfl
  | some v => exact get?_put_ne _ _ _ _ hm

/-- Frame property of the transfer stage over the concrete bucket: a key
that is not the destination parent, does not extend the destination key,
and is not an ancestor marker of the destination is unchanged on every
branch. -/
theorem copyStage_frame (p : Nat) (st : Store) (srcKey destKey : Key) (isDir : Bool)
    (depth : Key) (allow : Bool) (rootPfx : Key) (mid : Nat) (m : Key)
    (hm1 : m ≠ dirParent destKey)
    (hm2 : destKey.isPrefixOf m = false)
    (hm3 : m ∉ ancestorsOf destKey rootPfx) :
    Store.get? (copyStage (storeBackend p) st srcKey destKey isDir depth allow
      rootPfx mid).state m = Store.get? st m := by
  have hmne : m ≠ destKey := by
    intro he
    rw [he, isPrefixOf_self] at hm2
    simp at hm2
  have hanc : ∀ a ∈ ancestorsOf destKey rootPfx, a ≠ m := fun a ha he => hm3 (he ▸ ha)
  have hparfr := parentStep_frame p st destKey m hm1
  rw [copyStage]
  simp only []
  by_cases hovw : ((storeBackend p).head (parentStep (storeBackend p) st destKey).1
      destKey && !allow) = true
  · rw [if_pos hovw]
    exact hparfr
  · rw [if_neg hovw]
    cases isDir with
    | true =>
      rw [if_pos rfl]
      by_cases h0 : depth = "0".toList
      · rw [if_pos h0]
        show Store.get? (Store.put (parentStep (storeBackend p) st destKey).1 destKey [])
          m = Store.get? st m
        rw [get?_put_ne _ _ _ _ hmne]
        exact hparfr
      · rw [if_neg h0]
        by_cases hemp : (enumLoop (storeBackend p) (parentStep (storeBackend p) st
            destKey).1 srcKey none ((storeBackend p).fuel (parentStep (storeBackend p)
            st destKey).1)).1 = []
        · rw [if_pos hemp]
          by_cases hsrc : (storeBackend p).head (parentStep (storeBackend p) st
              destKey).1 srcKey = true
          · rw [if_pos hsrc]
            show Store.get? (Store.put (parentStep (storeBackend p) st destKey).1
              destKey []) m = Store.get? st m
            rw [get?_put_ne _ _ _ _ hmne]
            exact hparfr
          · rw [if_neg hsrc]
            exact hparfr
        · rw [if_neg hemp]
          rw [applyUpdateParents_frame p _ destKey rootPfx m hanc]
          rw [copyLoop_frame p _ _ srcKey destKey m hm2]
          exact hparfr
    | false =>
      rw [if_neg (show ¬(false = true) by simp)]
      by_cases hsrc : (storeBackend p).head (parentStep (storeBackend p) st destKey).1
          srcKey = true
      · rw [if_pos hsrc]
        rw [applyUpdateParents_frame p _ destKey rootPfx m hanc]
        rw [storeBackend_copy_frame p _ srcKey destKey m hmne]
        exact hparfr
      · rw [if_neg hsrc]
        exact hparfr

/-! ### Claim C8 -/

/-- C8 (amended): on every execution path the handler never issues a
delete, and every key it writes is destination-derived — the destination's
parent marker, a key extending the destination key, or an ancestor marker
of the destination; all other keys keep their content.  (When those
destination-derived keys overlap the source subtree — e.g. a destination
inside the source — source objects can be overwritten, see the
counterexample.) -/
theorem copy_additive_frame (p : Nat) (resolve : Key → MountResolution)
    (configOf : Nat → Option S3Config) (req : CopyRequest) (st : Store) :
    (handleCopy (storeBackend p) resolve configOf req st).events.any Event.isDeleteEv =
      false ∧
    ∀ m, m ≠ dirParent (destKeyOf resolve configOf req) →
      (destKeyOf resolve configOf req).isPrefixOf m = false →
      m ∉ ancestorsOf (destKeyOf resolve configOf req) (rootPfxOf resolve configOf req) →
      Store.get? (handleCopy (storeBackend p) resolve configOf req st).state m =
        Store.get? st m := by
  rcases handleCopy_cases (storeBackend p) resolve configOf req st with
    ⟨code, heq⟩ | ⟨dp, cfg, hp, hcfg, heq⟩
  · rw [heq]
    exact ⟨rfl, fun m _ _ _ => rfl⟩
  · have hDK := destKeyOf_eq resolve configOf req dp cfg hp hcfg
    have hRP := rootPfxOf_eq resolve configOf req cfg hcfg
    rw [heq, hDK, hRP]
    refine ⟨copyStage_no_delete _ _ _ _ _ _ _ _ _, fun m hm1 hm2 hm3 => ?_⟩
    exact copyStage_frame p st _ _ _ _ _ _ _ m hm1 hm2 hm3

/-- Witness for C8 at a concrete run: a disjoint recursive copy deletes
nothing and leaves an unrelated key untouched. -/
theorem copy_additive_frame_witness :
    (handleCopy (storeBackend 2) exResolve exConfigOf reqDisjoint storeFlat).events.any
      Event.isDeleteEv = false ∧
    Store.get? (handleCopy (storeBackend 2) exResolve exConfigOf reqDisjoint
      storeFlat).state ("zz".toList) = Store.get? storeFlat ("zz".toList) := by
  have h := copy_additive_frame 2 exResolve exConfigOf reqDisjoint storeFlat
  exact ⟨h.1, h.2 ("zz".toList) (by decide) (by decide) (by decide)⟩

/-- Counterexample to C8 as stated: a Depth-0 COPY whose destination lies
inside the source subtree returns success but overwrites the existing
source object `a/b/` (content `M` becomes the empty marker) — the source
subtree is modified by a put against one of its keys. -/
theorem copy_writes_into_source_cex :
    (handleCopy (storeBackend 2) exResolve exConfigOf reqDepth0Nested storeSub).status =
      201 ∧
    ("a/".toList).isPrefixOf ("a/b/".toList) = true ∧
    Store.get? storeSub ("a/b/".toList) = some ("M".toList) ∧
    Store.get? (handleCopy (storeBackend 2) exResolve exConfigOf reqDepth0Nested
      storeSub).state ("a/b/".toList) = some [] := by
  decide

/-! ### Claim C6 -/

/-- C6: a directory COPY with `Depth: 0` (overwriting allowed) succeeds
with exactly the zero-length marker materialised at the destination key:
every other key of the bucket is unchanged, and the trace contains no
listing and no per-object copy call — descendants are neither enumerated
nor copied. -/
theorem depth0_marker_only (p : Nat) (resolve : Key → MountResolution)
    (configOf : Nat → Option S3Config) (req : CopyRequest) (st : Store) (dp : Key)
    (cfg : S3Config)
    (h1 : (resolve req.path).error = none)
    (h2 : parseDestinationPath req.destinationHeader = some dp)
    (h3 : req.path ≠ dp)
    (h4 : (resolve dp).isRoot = false)
    (h5 : (resolve dp).error = none)
    (h6 : (resolve req.path).mount.id = (resolve dp).mount.id)
    (h8 : configOf (resolve req.path).mount.storage_config_id = some cfg)
    (hdepth : depthOf req.depthHeader = "0".toList)
    (hdir : endsSlash req.path = true)
    (hov : req.overwriteHeader ≠ some ['F']) :
    (handleCopy (storeBackend p) resolve configOf req st).status = 201 ∧
    Store.get? (handleCopy (storeBackend p) resolve configOf req st).state
      (destKeyOf resolve configOf req) = some [] ∧
    (∀ m, m ≠ destKeyOf resolve configOf req →
      Store.get? (handleCopy (storeBackend p) resolve configOf req st).state m =
        Store.get? st m) ∧
    (handleCopy (storeBackend p) resolve configOf req st).events.any Event.isListEv =
      false ∧
    (handleCopy (storeBackend p) resolve configOf req st).events.any Event.isCopyEv =
      false := by
  have h7 : ¬(depthOf req.depthHeader ≠ "0".toList ∧
      depthOf req.depthHeader ≠ "infinity".toList) := fun hc => hc.1 hdepth
  have hDK := destKeyOf_eq resolve configOf req dp cfg h2 h8
  rw [hDK]
  rw [handleCopy_eq_copyStage (storeBackend p) resolve configOf req st dp cfg
    h1 h2 h3 h4 h5 h6 h7 h8]
  set DK := (s3KeyPair cfg (resolve req.path).subPath (resolve dp).subPath req.path).2
    with hDKdef
  have hDKslash : endsSlash DK = true := by
    rw [hDKdef]
    show endsSlash (normalizeS3SubPath (resolve dp).subPath cfg (endsSlash req.path)) = true
    rw [hdir]
    exact endsSlash_normalize_dir _ _
  have hpar : dirParent DK = DK := dirParent_of_endsSlash hDKslash
  rw [hdir, hdepth, decide_eq_true hov]
  rw [copyStage]
  simp only [Bool.not_true, Bool.and_false]
  rw [if_pos trivial, if_pos trivial]
  refine ⟨rfl, ?_, ?_, ?_, ?_⟩
  · exact get?_put_self _ _ _
  · intro m hm
    show Store.get? (Store.put (parentStep (storeBackend p) st DK).1 DK []) m =
      Store.get? st m
    rw [get?_put_ne _ _ _ _ hm]
    exact parentStep_frame p st DK m (by rw [hpar]; exact hm)
  · have hp1 := (parentStep_any_false (storeBackend p) st DK).1
    simp [List.any_append, hp1, Event.isListEv]
  · have hp2 := (parentStep_any_false (storeBackend p) st DK).2
    simp [List.any_append, hp2, Event.isCopyEv]

/-- Witness for C6 at a concrete Depth-0 directory copy. -/
theorem depth0_marker_only_witness :
    (handleCopy (storeBackend 2) exResolve exConfigOf reqDepth0 storeTwoDirs).status =
      201 ∧
    Store.get? (handleCopy (storeBackend 2) exResolve exConfigOf reqDepth0
      storeTwoDirs).state ("c/".toList) = some [] ∧
    Store.get? (handleCopy (storeBackend 2) exResolve exConfigOf reqDepth0
      storeTwoDirs).state ("a/".toList) = Store.get? storeTwoDirs ("a/".toList) := by
  have h := depth0_marker_only 2 exResolve exConfigOf reqDepth0 storeTwoDirs
    ("/m/c/".toList) exCfg (by decide) (by decide) (by decide) (by decide) (by decide)
    (by decide) (by decide) (by decide) (by decide) (by decide)
  refine ⟨h.1, ?_, ?_⟩
  · have h2 := h.2.1
    simpa using h2
  · have h3 := h.2.2.1 ("a/".toList) (by decide)
    simpa using h3

/-- Recursive-copy correctness of the transfer stage, for disjoint source
and destination subtrees: every object under the source prefix at call
time ends up, with identical body, at the destination prefix plus its
relative path. -/
theorem copyStage_recursive_copies (p : Nat) (hp : 0 < p) (st : Store)
    (srcKey destKey rootPfx : Key) (mid : Nat)
    (hwf : st.wf)
    (hsd : srcKey.isPrefixOf destKey = false)
    (hds : destKey.isPrefixOf srcKey = false)
    (hne : filterKeys srcKey st ≠ []) :
    (copyStage (storeBackend p) st srcKey destKey true ("infinity".toList) true rootPfx
      mid).status = 201 ∧
    ∀ k v, Store.get? st k = some v → srcKey.isPrefixOf k = true →
      Store.get? (copyStage (storeBackend p) st srcKey destKey true ("infinity".toList)
        true rootPfx mid).state (destKey ++ k.drop srcKey.length) = some v := by
  have hPsrc : srcKey.isPrefixOf (dirParent destKey) = false := by
    cases hx : srcKey.isPrefixOf (dirParent destKey) with
    | false => rfl
    | true =>
      have htr := isPrefixOf_trans hx (dirParent_isPrefixOf destKey)
      rw [hsd] at htr
      simp at htr
  have hst1inv : ∀ m, srcKey.isPrefixOf m = true →
      Store.get? (parentStep (storeBackend p) st destKey).1 m = Store.get? st m := by
    intro m hm
    apply parentStep_frame
    intro he
    rw [he, hPsrc] at hm
    simp at hm
  have hfilter : filterKeys srcKey (parentStep (storeBackend p) st destKey).1 =
      filterKeys srcKey st := by
    rcases parentStep_state_cases (storeBackend p) st destKey with h | h
    · rw [h]
    · rw [h]
      exact filterKeys_put_not srcKey st (dirParent destKey) [] hPsrc
  have hwf1 : (parentStep (storeBackend p) st destKey).1.wf := by
    rcases parentStep_state_cases (storeBackend p) st destKey with h | h
    · rw [h]
      exact hwf
    · rw [h]
      exact wf_put st _ _ hwf
  have hobjs : (enumLoop (storeBackend p) (parentStep (storeBackend p) st destKey).1
      srcKey none ((storeBackend p).fuel (parentStep (storeBackend p) st destKey).1)).1
      = (filterKeys srcKey st).map Prod.fst := by
    rw [enumLoop_storeBackend_all p hp _ srcKey, hfilter]
  have hobjsne : (filterKeys srcKey st).map Prod.fst ≠ [] := by
    intro hx
    exact hne (List.map_eq_nil_iff.mp hx)
  have hsrcAll : ∀ k2 ∈ (filterKeys srcKey st).map Prod.fst,
      srcKey.isPrefixOf k2 = true := by
    intro k2 hk2
    obtain ⟨kv, hkv, hfst⟩ := List.mem_map.mp hk2
    rw [← hfst]
    exact (filterKeys_mem hkv).2
  have hex : ∀ k2 ∈ (filterKeys srcKey st).map Prod.fst,
      (Store.get? st k2).isSome = true := by
    intro k2 hk2
    obtain ⟨kv, hkv, hfst⟩ := List.mem_map.mp hk2
    obtain ⟨a, b⟩ := kv
    rw [← hfst]
    exact get?_isSome_of_mem (filterKeys_mem hkv).1
  have hnd : ((filterKeys srcKey st).map Prod.fst).Nodup := nodup_map_fst_filterKeys hwf
  rw [copyStage]
  simp only [Bool.not_true, Bool.and_false]
  rw [if_pos trivial, if_neg (show ¬("infinity".toList = "0".toList) by decide), hobjs,
    if_neg hobjsne]
  constructor
  · rfl
  · intro k v hv hkp
    have hkmem : k ∈ (filterKeys srcKey st).map Prod.fst := by
      have hmem1 : (k, v) ∈ st := mem_of_get?_eq_some hv
      exact List.mem_map_of_mem Prod.fst (mem_filterKeys hmem1 hkp)
    have hanc : ∀ a ∈ ancestorsOf destKey rootPfx,
        a ≠ destKey ++ k.drop srcKey.length := by
      intro a ha he
      have hl := mem_ancestorsOf_length ha
      rw [he, List.length_append] at hl
      omega
    show Store.get? (applyUpdateParents (storeBackend p)
      (copyLoop (storeBackend p) (parentStep (storeBackend p) st destKey).1
        ((filterKeys srcKey st).map Prod.fst) srcKey destKey).1 destKey rootPfx)
      (destKey ++ k.drop srcKey.length) = some v
    rw [applyUpdateParents_frame p _ destKey rootPfx _ hanc]
    rw [copyLoop_spec p ((filterKeys srcKey st).map Prod.fst)
      (parentStep (storeBackend p) st destKey).1 st srcKey destKey hsd hds hsrcAll hnd
      hex hst1inv k hkmem]
    exact hv

/-! ### Claim C1 -/

/-- C1 (amended): a recursive directory COPY (Depth infinity, overwriting
allowed) whose source prefix holds at least one object, and whose source
and destination subtrees are disjoint (neither key a prefix of the other),
succeeds, and afterwards every object that was under the source prefix at
call time is present at the destination prefix plus its relative path with
identical content — the handler having paged through all objects under the
source prefix. -/
theorem recursiveCopy_preserves_subtree (p : Nat) (hp : 0 < p)
    (resolve : Key → MountResolution) (configOf : Nat → Option S3Config)
    (req : CopyRequest) (st : Store) (dp : Key) (cfg : S3Config)
    (hwf : st.wf)
    (h1 : (resolve req.path).error = none)
    (h2 : parseDestinationPath req.destinationHeader = some dp)
    (h3 : req.path ≠ dp)
    (h4 : (resolve dp).isRoot = false)
    (h5 : (resolve dp).error = none)
    (h6 : (resolve req.path).mount.id = (resolve dp).mount.id)
    (h8 : configOf (resolve req.path).mount.storage_config_id = some cfg)
    (hdepth : depthOf req.depthHeader = "infinity".toList)
    (hdir : endsSlash req.path = true)
    (hov : req.overwriteHeader ≠ some ['F'])
    (hne : filterKeys (srcKeyOf resolve configOf req) st ≠ [])
    (hsd : (srcKeyOf resolve configOf req).isPrefixOf (destKeyOf resolve configOf req) =
      false)
    (hds : (destKeyOf resolve configOf req).isPrefixOf (srcKeyOf resolve configOf req) =
      false) :
    (handleCopy (storeBackend p) resolve configOf req st).status = 201 ∧
    ∀ k v, Store.get? st k = some v →
      (srcKeyOf resolve configOf req).isPrefixOf k = true →
      Store.get? (handleCopy (storeBackend p) resolve configOf req st).state
        (destKeyOf resolve configOf req ++ k.drop (srcKeyOf resolve configOf req).length)
        = some v := by
  have h7 : ¬(depthOf req.depthHeader ≠ "0".toList ∧
      depthOf req.depthHeader ≠ "infinity".toList) := fun hc => hc.2 hdepth
  have hDK := destKeyOf_eq resolve configOf req dp cfg h2 h8
  have hSK := srcKeyOf_eq resolve configOf req dp cfg h2 h8
  rw [hSK] at hne
  rw [hDK, hSK] at hsd
  rw [hDK, hSK] at hds
  rw [hDK, hSK]
  rw [handleCopy_eq_copyStage (storeBackend p) resolve configOf req st dp cfg
    h1 h2 h3 h4 h5 h6 h7 h8]
  rw [hdir, hdepth, decide_eq_true hov]
  exact copyStage_recursive_copies p hp st _ _ (rootPrefixOf cfg) _ hwf hsd hds hne

/-- Witness for C1 at a concrete disjoint recursive copy: `a/x` with body
`X` ends up at the destination's relative path. -/
theorem recursiveCopy_preserves_subtree_witness :
    (handleCopy (storeBackend 2) exResolve exConfigOf reqDisjoint storeFlat).status =
      201 ∧
    Store.get? (handleCopy (storeBackend 2) exResolve exConfigOf reqDisjoint
      storeFlat).state (destKeyOf exResolve exConfigOf reqDisjoint ++
        ("a/x".toList).drop (srcKeyOf exResolve exConfigOf reqDisjoint).length) =
      some ("X".toList) := by
  have h := recursiveCopy_preserves_subtree 2 (by decide) exResolve exConfigOf
    reqDisjoint storeFlat ("/m/c/".toList) exCfg (by decide) (by decide) (by decide)
    (by decide) (by decide) (by decide) (by decide) (by decide) (by decide) (by decide)
    (by decide) (by decide) (by decide) (by decide)
  exact ⟨h.1, h.2 ("a/x".toList) ("X".toList) (by decide) (by decide)⟩

/-- Counterexample to C1 as stated: when the destination directory lies
inside the source subtree, the copy succeeds (201) but the relative path
`b/` — present under the source as `a/b/` with body `M` at call time —
does not carry identical content at the destination afterwards (an earlier
iteration of the loop overwrote the source object before it was read). -/
theorem recursiveCopy_overlap_cex :
    (handleCopy (storeBackend 2) exResolve exConfigOf reqNested storeNested).status =
      201 ∧
    Store.get? storeNested ("a/b/".toList) = some ("M".toList) ∧
    ("a/".toList).isPrefixOf ("a/b/".toList) = true ∧
    Store.get? (handleCopy (storeBackend 2) exResolve exConfigOf reqNested
      storeNested).state ("a/b/".toList ++ ("a/b/".toList).drop
        ("a/".toList).length) ≠ some ("M".toList) := by
  decide

/-! ### Claim C4 -/

/-- C4: in a recursive directory COPY whose enumeration yields no object,
the handler falls back to a head probe on the bare source prefix key: if
that key exists, the copy succeeds (201) and the only write is the empty
destination marker; if the probe reports absence, the handler answers 404
and writes nothing.  Stated over an arbitrary backend, whose listing may
disagree with its head answers (as an eventually-consistent object store
can). -/
theorem emptyDir_fallback_head (B : Backend σ) (resolve : Key → MountResolution)
    (configOf : Nat → Option S3Config) (req : CopyRequest) (st : σ) (dp : Key)
    (cfg : S3Config)
    (h1 : (resolve req.path).error = none)
    (h2 : parseDestinationPath req.destinationHeader = some dp)
    (h3 : req.path ≠ dp)
    (h4 : (resolve dp).isRoot = false)
    (h5 : (resolve dp).error = none)
    (h6 : (resolve req.path).mount.id = (resolve dp).mount.id)
    (h8 : configOf (resolve req.path).mount.storage_config_id = some cfg)
    (hdepth : depthOf req.depthHeader = "infinity".toList)
    (hdir : endsSlash req.path = true)
    (hov : req.overwriteHeader ≠ some ['F'])
    (hpar : '/' ∈ destKeyOf resolve configOf req →
      checkDirectoryExists B st (dirParent (destKeyOf resolve configOf req)) = true)
    (henum : (enumLoop B st (srcKeyOf resolve configOf req) none (B.fuel st)).1 = []) :
    (B.head st (srcKeyOf resolve configOf req) = true →
      (handleCopy B resolve configOf req st).status = 201 ∧
      (handleCopy B resolve configOf req st).state =
        B.put st (destKeyOf resolve configOf req) [] ∧
      Event.put (destKeyOf resolve configOf req) [] ∈
        (handleCopy B resolve configOf req st).events) ∧
    (B.head st (srcKeyOf resolve configOf req) = false →
      (handleCopy B resolve configOf req st).status = 404 ∧
      (handleCopy B resolve configOf req st).state = st) := by
  have h7 : ¬(depthOf req.depthHeader ≠ "0".toList ∧
      depthOf req.depthHeader ≠ "infinity".toList) := fun hc => hc.2 hdepth
  have hDK := destKeyOf_eq resolve configOf req dp cfg h2 h8
  have hSK := srcKeyOf_eq resolve configOf req dp cfg h2 h8
  rw [hDK] at hpar
  rw [hSK] at henum
  rw [hDK, hSK]
  rw [handleCopy_eq_copyStage B resolve configOf req st dp cfg
    h1 h2 h3 h4 h5 h6 h7 h8]
  set DK := (s3KeyPair cfg (resolve req.path).subPath (resolve dp).subPath req.path).2
    with hDKdef
  set SK := (s3KeyPair cfg (resolve req.path).subPath (resolve dp).subPath req.path).1
    with hSKdef
  have hst1 : (parentStep B st DK).1 = st := by
    rw [parentStep]
    by_cases hmem : '/' ∈ DK
    · rw [if_pos hmem, if_pos (hpar hmem)]
    · rw [if_neg hmem]
  rw [hdir, hdepth, decide_eq_true hov]
  rw [copyStage]
  simp only [Bool.not_true, Bool.and_false, hst1]
  rw [if_pos trivial]
  rw [if_neg (show ¬("infinity".toList = "0".toList) by decide)]
  rw [if_pos henum]
  constructor
  · intro hh
    rw [hh]
    rw [if_neg (show ¬(false = true) by simp), if_pos rfl]
    refine ⟨rfl, rfl, ?_⟩
    simp
  · intro hh
    rw [hh]
    rw [if_neg (show ¬(false = true) by simp),
      if_neg (show ¬(false = true) by simp)]
    exact ⟨rfl, rfl⟩

/-- Witness for C4, using a backend whose listing answers are empty while
head sees the bucket: the marker-present source `a/` succeeds with the
destination marker written, and the absent source `d/` yields 404. -/
theorem emptyDir_fallback_head_witness :
    ((handleCopy blindListBackend exResolve exConfigOf reqDisjoint storeTwoDirs).status =
        201 ∧
      (handleCopy blindListBackend exResolve exConfigOf reqDisjoint storeTwoDirs).state =
        blindListBackend.put storeTwoDirs ("c/".toList) []) ∧
    ((handleCopy blindListBackend exResolve exConfigOf reqMissingDir
        storeTwoDirs).status = 404 ∧
      (handleCopy blindListBackend exResolve exConfigOf reqMissingDir
        storeTwoDirs).state = storeTwoDirs) := by
  have ha := emptyDir_fallback_head blindListBackend exResolve exConfigOf reqDisjoint
    storeTwoDirs ("/m/c/".toList) exCfg (by decide) (by decide) (by decide) (by decide)
    (by decide) (by decide) (by decide) (by decide) (by decide) (by decide)
    (fun _ => by decide) (by decide)
  have hb := emptyDir_fallback_head blindListBackend exResolve exConfigOf reqMissingDir
    storeTwoDirs ("/m/c/".toList) exCfg (by decide) (by decide) (by decide) (by decide)
    (by decide) (by decide) (by decide) (by decide) (by decide) (by decide)
    (fun _ => by decide) (by decide)
  have ha1 := ha.1 (by decide)
  have hb1 := hb.2 (by decide)
  exact ⟨⟨by simpa using ha1.1, by simpa using ha1.2.1⟩,
    ⟨by simpa using hb1.1, by simpa using hb1.2⟩⟩

/-! ### Claim C10 -/

/-- C10: both S3 keys are normalised with the directory flag taken from
the source virtual path's trailing separator alone: a trailing separator
on the destination sub-path does not change the destination key at all,
and (for a nonempty cleaned sub-path) the directory-ness of the computed
keys equals the source path's trailing separator. -/
theorem directoryness_from_source_path (cfg : S3Config) (srcSub destSub path : Key)
    (h : cleanSub destSub ≠ []) :
    s3KeyPair cfg srcSub (destSub ++ ['/']) path = s3KeyPair cfg srcSub destSub path ∧
    endsSlash (s3KeyPair cfg srcSub destSub path).2 = endsSlash path ∧
    (cleanSub srcSub ≠ [] →
      endsSlash (s3KeyPair cfg srcSub destSub path).1 = endsSlash path) := by
  refine ⟨?_, ?_, ?_⟩
  · have hnd : normalizeS3SubPath (destSub ++ ['/']) cfg (endsSlash path) =
        normalizeS3SubPath destSub cfg (endsSlash path) := by
      rw [normalizeS3SubPath, normalizeS3SubPath, cleanSub_append_slash]
    show (normalizeS3SubPath srcSub cfg (endsSlash path),
        normalizeS3SubPath (destSub ++ ['/']) cfg (endsSlash path)) =
      (normalizeS3SubPath srcSub cfg (endsSlash path),
        normalizeS3SubPath destSub cfg (endsSlash path))
    rw [hnd]
  · exact endsSlash_normalize destSub cfg (endsSlash path) h
  · intro hs
    exact endsSlash_normalize srcSub cfg (endsSlash path) hs

/-- Witness for C10 at concrete sub-paths. -/
theorem directoryness_from_source_path_witness :
    cleanSub ("d".toList) ≠ [] ∧
    s3KeyPair exCfg ("a".toList) ("d".toList ++ ['/']) ("/m/a/".toList) =
      s3KeyPair exCfg ("a".toList) ("d".toList) ("/m/a/".toList) ∧
    endsSlash (s3KeyPair exCfg ("a".toList) ("d".toList) ("/m/a/".toList)).2 =
      endsSlash ("/m/a/".toList) :=
  ⟨by decide,
   (directoryness_from_source_path exCfg ("a".toList) ("d".toList) ("/m/a/".toList)
     (by decide)).1,
   (directoryness_from_source_path exCfg ("a".toList) ("d".toList) ("/m/a/".toList)
     (by decide)).2.1⟩

end CloudPaste
